import Mathlib

/-!
# Verification of `github.com/bartvsdev/iterator`

A shallow embedding of `iterator.go` and `maps.go` and proofs about it.

## Modelling conventions

* A Go `error` value is `Option Error` (`none` is `nil`).  `Error` has the package
  sentinel `ErrNoNext`, other plain error values, and error values with an `Unwrap`
  method (what `fmt.Errorf("%w", ..)` or `*strconv.NumError` build), so that
  `errors.Is` can be modelled as Go defines it: identity, or identity of something in
  the `Unwrap` chain.
* A Go result `(T, error)` is the pair `T × Option Error`; the zero value of `T` is
  `default` of `Inhabited T`.
* An `Iterator[T]` value is a pointer to one of the four struct types of the package
  (`sliceIter`, `mapIter`, `mapErrIter`, `filterIter`), or any other implementation of
  the interface (`custom`: some state and a `Next` method on it).  Calling `Next`
  mutates the object; here `Next` returns the result together with the object after
  the call.  Each iterator owns its inner iterator (no aliasing between iterators).
* Go loops need not terminate (a `Filter` over an endless iterator whose values all
  fail the predicate).  Every function that contains or reaches a loop takes a `fuel`
  bound on the nesting of calls and loop rounds and returns `none` when it is used up;
  the theorems give fuel that is enough.
* User functions are pure.  Where a claim counts the calls of a user function or the
  pulls from the inner iterator, the body of the method is given a second time with a
  record of those effects (`mapIter.NextTraced`, `mapErrIter.NextTraced`), and shown to
  return what `Next` returns.
* A Go map is the list of its entries, with distinct keys, in the order in which a
  `range` loop visits them; the runtime picks the order, so the theorems hold for every
  permutation of the entries.
-/

namespace iterator

/-- Go error values (the dynamic values an `error` interface can hold, `nil` apart). -/
inductive Error where
  /-- The package variable `ErrNoNext = errors.New("invoking Next on an empty iterator")`. -/
  | ErrNoNext : Error
  /-- Any other error value that has no `Unwrap` method, told apart by `id`. -/
  | New (id : Nat) : Error
  /-- An error value, told apart by `id`, whose `Unwrap` method returns `err`. -/
  | Wrap (id : Nat) (err : Error) : Error
  deriving DecidableEq, Repr

/-- The Go interface type `error`: `none` is `nil`. -/
abbrev error := Option Error

/-- Go's `errors.Is(err, target)` for a non-nil comparable `target`: `err` is `target`,
or unwrapping `err` repeatedly reaches `target`. `errors.Is(nil, target)` is false. -/
def Error.Is (err target : Error) : Bool :=
  if err = target then true
  else
    match err with
    | Error.Wrap _ inner => Error.Is inner target
    | _ => false

/-- Go's `errors.Is(err, target)` on the interface value `err`. -/
def errors.Is (err : error) (target : Error) : Bool :=
  match err with
  | none => false
  | some e => e.Is target

/-- The interface `Iterator[T]`: the objects that have a `Next() (T, error)` method. -/
inductive Iterator : Type → Type 1 where
  /-- `&sliceIter[T]{slice}`. -/
  | sliceIter {T : Type} [Inhabited T] (slice : List T) : Iterator T
  /-- `&mapIter[T1, T2]{inner, fn}`. -/
  | mapIter {T1 T2 : Type} [Inhabited T2] (inner : Iterator T1) (fn : T1 → T2) : Iterator T2
  /-- `&mapErrIter[T1, T2]{inner, fn}`. -/
  | mapErrIter {T1 T2 : Type} [Inhabited T2] (inner : Iterator T1)
      (fn : T1 → T2 × error) : Iterator T2
  /-- `&filterIter[T]{inner, pred}`. -/
  | filterIter {T : Type} (inner : Iterator T) (pred : T → Bool) : Iterator T
  /-- Any other implementation of the interface: a state and its `Next` method. -/
  | custom {T : Type} (σ : Type) (state : σ) (next : σ → (T × error) × σ) : Iterator T

/-- `func (iter *sliceIter[T]) Next() (value T, err error)`: the result and the new
`iter.slice`.  The index expression `iter.slice[0]` carries the proof that it is in
bounds, which the guard `len(iter.slice) > 0` provides. -/
def sliceIter.Next {T : Type} [Inhabited T] (slice : List T) : (T × error) × List T :=
  if h : slice.length > 0 then
    ((slice[0], none), slice.drop 1)
  else
    ((default, some Error.ErrNoNext), slice)

/-- The method `Next` of an `Iterator[T]`, dispatching on the dynamic type.
`mapIter.Next`, `mapErrIter.Next` and `filterIter.Next` call `iter.inner.Next()`;
`filterIter.Next` loops, each round being one more recursive call. -/
def Iterator.Next : Nat → {T : Type} → Iterator T → Option ((T × error) × Iterator T)
  | 0, _, _ => none
  | _ + 1, _, @Iterator.sliceIter _ _ slice =>
    let (r, slice1) := sliceIter.Next slice
    some (r, .sliceIter slice1)
  | fuel + 1, _, @Iterator.mapIter _ _ _ inner fn =>
    match Iterator.Next fuel inner with
    | none => none
    | some ((oldValue, err), inner1) =>
      match err with
      | none => some ((fn oldValue, none), .mapIter inner1 fn)
      | some e => some ((default, some e), .mapIter inner1 fn)
  | fuel + 1, _, @Iterator.mapErrIter _ _ _ inner fn =>
    match Iterator.Next fuel inner with
    | none => none
    | some ((oldValue, err), inner1) =>
      match err with
      | none => some (fn oldValue, .mapErrIter inner1 fn)
      | some e => some ((default, some e), .mapErrIter inner1 fn)
  | fuel + 1, _, .filterIter inner pred =>
    match Iterator.Next fuel inner with
    | none => none
    | some ((value, err), inner1) =>
      match err with
      | none =>
        if pred value then some ((value, none), .filterIter inner1 pred)
        else Iterator.Next fuel (.filterIter inner1 pred)
      | some e => some ((value, some e), .filterIter inner1 pred)
  | _ + 1, _, .custom σ state next =>
    let (r, state1) := next state
    some (r, .custom σ state1 next)

/-- `func Slice[T any](slice []T) Iterator[T]`. -/
def Slice {T : Type} [Inhabited T] (slice : List T) : Iterator T :=
  .sliceIter slice

/-- `func Map[T1, T2 any](iter Iterator[T1], fn func(T1) T2) Iterator[T2]`. -/
def Map {T1 T2 : Type} [Inhabited T2] (iter : Iterator T1) (fn : T1 → T2) : Iterator T2 :=
  .mapIter iter fn

/-- `func MapErr[T1, T2 any](iter Iterator[T1], fn func(T1) (T2, error)) Iterator[T2]`. -/
def MapErr {T1 T2 : Type} [Inhabited T2] (iter : Iterator T1) (fn : T1 → T2 × error) :
    Iterator T2 :=
  .mapErrIter iter fn

/-- `func Filter[T any](iter Iterator[T], pred func(T) bool) Iterator[T]`. -/
def Filter {T : Type} (iter : Iterator T) (pred : T → Bool) : Iterator T :=
  .filterIter iter pred

/-- `var ErrNoNext`. -/
abbrev ErrNoNext : Error := Error.ErrNoNext

/-- The loop of `ToSlice`, entered with the slice `result` built so far. The returned
slice is `none` for Go's `nil`. -/
def ToSlice.loop {T : Type} :
    Nat → Iterator T → List T → Option ((Option (List T) × error) × Iterator T)
  | 0, _, _ => none
  | fuel + 1, iter, result =>
    match iter.Next fuel with
    | none => none
    | some ((value, err), iter1) =>
      match err with
      | none => ToSlice.loop fuel iter1 (result ++ [value])
      | some e =>
        if errors.Is (some e) ErrNoNext then some ((some result, none), iter1)
        else some ((none, some e), iter1)

/-- `func ToSlice[T any](iter Iterator[T]) ([]T, error)`, with the iterator as the call
leaves it. -/
def ToSlice {T : Type} (fuel : Nat) (iter : Iterator T) :
    Option ((Option (List T) × error) × Iterator T) :=
  ToSlice.loop fuel iter []

/-- `func ForEach[T any](iter Iterator[T], fn func(T)) (err error)`. The callback acts on
its surroundings, a state of type `ε` that `fn value` transforms; the result is the
error, the surroundings after the calls of `fn`, and the iterator as the call leaves it. -/
def ForEach {T ε : Type} :
    Nat → Iterator T → (T → ε → ε) → ε → Option ((error × ε) × Iterator T)
  | 0, _, _, _ => none
  | fuel + 1, iter, fn, env =>
    match iter.Next fuel with
    | none => none
    | some ((value, err), iter1) =>
      match err with
      | none => ForEach fuel iter1 fn (fn value env)
      | some e =>
        if errors.Is (some e) ErrNoNext then some ((none, env), iter1)
        else some ((some e, env), iter1)

/-- The loop of `Fold`, entered with the accumulator `acc`; `init` is kept for the
return on an error. -/
def Fold.loop {T1 T2 : Type} (init : T2) (comb : T2 → T1 → T2) :
    Nat → Iterator T1 → T2 → Option ((T2 × error) × Iterator T1)
  | 0, _, _ => none
  | fuel + 1, iter, acc =>
    match iter.Next fuel with
    | none => none
    | some ((value, err), iter1) =>
      match err with
      | none => Fold.loop init comb fuel iter1 (comb acc value)
      | some e =>
        if errors.Is (some e) ErrNoNext then some ((acc, none), iter1)
        else some ((init, some e), iter1)

/-- `func Fold[T1 any, T2 any](iter Iterator[T1], init T2, comb func(T2, T1) T2) (T2, error)`,
with the iterator as the call leaves it. -/
def Fold {T1 T2 : Type} (fuel : Nat) (iter : Iterator T1) (init : T2) (comb : T2 → T1 → T2) :
    Option ((T2 × error) × Iterator T1) :=
  Fold.loop init comb fuel iter init

/-- The results of `k` calls of `Next` in a row, and the iterator after them. -/
def Iterator.Nexts {T : Type} (fuel : Nat) :
    Nat → Iterator T → Option (List (T × error) × Iterator T)
  | 0, iter => some ([], iter)
  | k + 1, iter =>
    match iter.Next fuel with
    | none => none
    | some (r, iter1) =>
      match Iterator.Nexts fuel k iter1 with
      | none => none
      | some (rs, iter2) => some (r :: rs, iter2)

/-- The result of call number `k` of `Next`, counting from 0: the call made after `k`
earlier calls. -/
def Iterator.NextAt {T : Type} (fuel : Nat) : Nat → Iterator T → Option (T × error)
  | 0, iter => (iter.Next fuel).map Prod.fst
  | k + 1, iter =>
    match iter.Next fuel with
    | none => none
    | some (_, iter1) => Iterator.NextAt fuel k iter1

/-- `strconv.ErrSyntax` of the Go standard library. -/
def strconv.ErrSyntax : Error := Error.New 1

/-- `strconv.ErrRange` of the Go standard library. -/
def strconv.ErrRange : Error := Error.New 2

/-- A model of `strconv.Atoi` of the Go standard library (64-bit `int`), the function the
package's test passes to `MapErr`: an optional sign and then one or more decimal digits;
a failure returns a `*strconv.NumError`, whose `Unwrap` gives `ErrSyntax` or `ErrRange`. -/
def strconv.Atoi (s : String) : Int × error :=
  let (neg, digits) : Bool × List Char :=
    match s.toList with
    | '-' :: rest => (true, rest)
    | '+' :: rest => (false, rest)
    | rest => (false, rest)
  if digits.isEmpty || !digits.all Char.isDigit then
    (0, some (Error.Wrap 0 strconv.ErrSyntax))
  else
    let un : Nat := digits.foldl (fun n ch => n * 10 + (ch.toNat - 48)) 0
    if !neg && un ≥ 2 ^ 63 then ((2 : Int) ^ 63 - 1, some (Error.Wrap 0 strconv.ErrRange))
    else if neg && un > 2 ^ 63 then (-(2 : Int) ^ 63, some (Error.Wrap 0 strconv.ErrRange))
    else (if neg then -(un : Int) else (un : Int), none)

/-- An iterator the package built: a `Slice` under any nesting of `Map`, `MapErr` and
`Filter`, with no other implementation of the interface inside. -/
def Iterator.Built : {T : Type} → Iterator T → Prop
  | _, @Iterator.sliceIter _ _ _ => True
  | _, @Iterator.mapIter _ _ _ inner _ => inner.Built
  | _, @Iterator.mapErrIter _ _ _ inner _ => inner.Built
  | _, .filterIter inner _ => inner.Built
  | _, .custom _ _ _ => False

/-- No function given to a `MapErr` inside the iterator ever returns the error
`ErrNoNext` itself. -/
def Iterator.NoFnReturnsErrNoNext : {T : Type} → Iterator T → Prop
  | _, @Iterator.sliceIter _ _ _ => True
  | _, @Iterator.mapIter _ _ _ inner _ => inner.NoFnReturnsErrNoNext
  | _, @Iterator.mapErrIter _ _ _ inner fn =>
    (∀ x, (fn x).2 ≠ some ErrNoNext) ∧ inner.NoFnReturnsErrNoNext
  | _, .filterIter inner _ => inner.NoFnReturnsErrNoNext
  | _, .custom _ _ _ => True

/-- A fallible function for the examples: it fails with the error `e` on `0` and
succeeds with its argument on every other number. -/
def failOnZero (e : Error) (x : Nat) : Nat × error :=
  if x = 0 then (0, some e) else (x, none)

/-- The length of the view that the source `sliceIter` of the iterator still holds (0 for
an implementation of the interface that is not the package's). -/
def Iterator.remaining : {T : Type} → Iterator T → Nat
  | _, @Iterator.sliceIter _ _ slice => slice.length
  | _, @Iterator.mapIter _ _ _ inner _ => inner.remaining
  | _, @Iterator.mapErrIter _ _ _ inner _ => inner.remaining
  | _, .filterIter inner _ => inner.remaining
  | _, .custom _ _ _ => 0

/-- The number of iterator objects on the way from the iterator down to its source, the
source included: the nesting of the calls of `Next`. -/
def Iterator.depth : {T : Type} → Iterator T → Nat
  | _, @Iterator.sliceIter _ _ _ => 1
  | _, @Iterator.mapIter _ _ _ inner _ => inner.depth + 1
  | _, @Iterator.mapErrIter _ _ _ inner _ => inner.depth + 1
  | _, .filterIter inner _ => inner.depth + 1
  | _, .custom _ _ _ => 1

/-- What calls of `Next` on a `mapIter` or a `mapErrIter` did besides returning: how many
times they called `iter.inner.Next()`, and the arguments of their calls of `iter.fn`, in
the order of the calls. -/
structure Effects (T1 : Type) where
  /-- The number of calls of `iter.inner.Next()`. -/
  pulls : Nat
  /-- The arguments of the calls of `iter.fn`, oldest first. -/
  calls : List T1

/-- The body of `func (iter *mapIter[T1, T2]) Next() (value T2, err error)` with its
effects on record: the result, `iter.inner` after the call, and the record `log`
extended by what the call did. -/
def mapIter.NextTraced {T1 T2 : Type} [Inhabited T2] (fuel : Nat) (inner : Iterator T1)
    (fn : T1 → T2) (log : Effects T1) : Option (((T2 × error) × Iterator T1) × Effects T1) :=
  match inner.Next fuel with
  | none => none
  | some ((oldValue, err), inner1) =>
    match err with
    | none => some (((fn oldValue, none), inner1), ⟨log.pulls + 1, log.calls ++ [oldValue]⟩)
    | some e => some (((default, some e), inner1), ⟨log.pulls + 1, log.calls⟩)

/-- The body of `func (iter *mapErrIter[T1, T2]) Next() (value T2, err error)` with its
effects on record, as `mapIter.NextTraced`. -/
def mapErrIter.NextTraced {T1 T2 : Type} [Inhabited T2] (fuel : Nat) (inner : Iterator T1)
    (fn : T1 → T2 × error) (log : Effects T1) :
    Option (((T2 × error) × Iterator T1) × Effects T1) :=
  match inner.Next fuel with
  | none => none
  | some ((oldValue, err), inner1) =>
    match err with
    | none => some ((fn oldValue, inner1), ⟨log.pulls + 1, log.calls ++ [oldValue]⟩)
    | some e => some (((default, some e), inner1), ⟨log.pulls + 1, log.calls⟩)

/-- The results of `k` calls in a row of `Next` on `&mapIter{inner, fn}`, `iter.inner`
after them, and the record of what they did. -/
def mapIter.NextsTraced {T1 T2 : Type} [Inhabited T2] (fuel : Nat) (fn : T1 → T2) :
    Nat → Iterator T1 → Effects T1 → Option ((List (T2 × error) × Iterator T1) × Effects T1)
  | 0, inner, log => some (([], inner), log)
  | k + 1, inner, log =>
    match mapIter.NextTraced fuel inner fn log with
    | none => none
    | some ((r, inner1), log1) =>
      match mapIter.NextsTraced fuel fn k inner1 log1 with
      | none => none
      | some ((rs, inner2), log2) => some ((r :: rs, inner2), log2)

/-- The results of `k` calls in a row of `Next` on `&mapErrIter{inner, fn}`, `iter.inner`
after them, and the record of what they did. -/
def mapErrIter.NextsTraced {T1 T2 : Type} [Inhabited T2] (fuel : Nat) (fn : T1 → T2 × error) :
    Nat → Iterator T1 → Effects T1 → Option ((List (T2 × error) × Iterator T1) × Effects T1)
  | 0, inner, log => some (([], inner), log)
  | k + 1, inner, log =>
    match mapErrIter.NextTraced fuel inner fn log with
    | none => none
    | some ((r, inner1), log1) =>
      match mapErrIter.NextsTraced fuel fn k inner1 log1 with
      | none => none
      | some ((rs, inner2), log2) => some ((r :: rs, inner2), log2)

/-- `type Entry[K comparable, V any] struct { key K; value V }` of `maps.go`. -/
structure Entry (K V : Type) where
  /-- The field `key`. -/
  key : K
  /-- The field `value`. -/
  value : V

/-- `func Keys[M ~map[K]V, K comparable, V any](m M) []K` of `maps.go`. The map is given
by its entries in the order in which the `range` loop of this call visits them; the Go
runtime picks that order, and the loop visits every entry once. The result is never
Go's `nil` (`make` returns an empty slice that is not nil), so it is always `some`. -/
def Keys {K V : Type} (m : List (K × V)) : Option (List K) :=
  some (m.foldl (fun r kv => r ++ [kv.1]) [])

/-- `func Values[M ~map[K]V, K comparable, V any](m M) []V` of `maps.go`, the map given
as for `Keys`. -/
def Values {K V : Type} (m : List (K × V)) : Option (List V) :=
  some (m.foldl (fun r kv => r ++ [kv.2]) [])

/-- `func Entries[E Entry[K, V], M ~map[K]V, K comparable, V any](m M) []E` of `maps.go`,
the map given as for `Keys`. -/
def Entries {K V : Type} (m : List (K × V)) : Option (List (Entry K V)) :=
  some (m.foldl (fun r kv => r ++ [Entry.mk kv.1 kv.2]) [])

/-! ## Lemmas

### Fuel: a call that returns with some fuel returns the same with more -/

@[simp] theorem sliceIter.Next_nil {T : Type} [Inhabited T] :
    sliceIter.Next ([] : List T) = ((default, some Error.ErrNoNext), []) := rfl

@[simp] theorem sliceIter.Next_cons {T : Type} [Inhabited T] (x : T) (l : List T) :
    sliceIter.Next (x :: l) = ((x, none), l) := by simp [sliceIter.Next]

theorem Iterator.Next_mono {n : Nat} : ∀ {T : Type} {it : Iterator T}
    {r : (T × error) × Iterator T}, it.Next n = some r → ∀ m, n ≤ m → it.Next m = some r := by
  induction n with
  | zero => intro T it r h; simp [Iterator.Next] at h
  | succ n ih =>
    intro T it r h m hm
    obtain ⟨m, rfl⟩ : ∃ m1, m = m1 + 1 := ⟨m - 1, by omega⟩
    have hnm : n ≤ m := by omega
    cases it with
    | sliceIter slice => simpa [Iterator.Next] using h
    | custom σ state next => simpa [Iterator.Next] using h
    | mapIter inner fn =>
      simp only [Iterator.Next] at h ⊢
      cases hi : Iterator.Next n inner with
      | none => simp [hi] at h
      | some ri => rw [hi] at h; rw [ih hi m hnm]; exact h
    | mapErrIter inner fn =>
      simp only [Iterator.Next] at h ⊢
      cases hi : Iterator.Next n inner with
      | none => simp [hi] at h
      | some ri => rw [hi] at h; rw [ih hi m hnm]; exact h
    | filterIter inner pred =>
      simp only [Iterator.Next] at h ⊢
      cases hi : Iterator.Next n inner with
      | none => simp [hi] at h
      | some ri =>
        rw [hi] at h; rw [ih hi m hnm]
        obtain ⟨⟨v, err⟩, inner1⟩ := ri
        cases err with
        | some e => exact h
        | none =>
          simp only at h ⊢
          by_cases hp : pred v = true
          · simpa [hp] using h
          · simp only [hp] at h ⊢
            exact ih h m hnm

/-! ### One call of `Next` on the iterators built over a slice -/

theorem Next_Slice_nil {T : Type} [Inhabited T] (n : Nat) :
    (Slice ([] : List T)).Next (n + 1) = some ((default, some ErrNoNext), Slice []) := by
  simp [Slice, Iterator.Next]

theorem Next_Slice_cons {T : Type} [Inhabited T] (n : Nat) (x : T) (l : List T) :
    (Slice (x :: l)).Next (n + 1) = some ((x, none), Slice l) := by
  simp [Slice, Iterator.Next]

theorem Next_Map_nil {T1 T2 : Type} [Inhabited T1] [Inhabited T2] (n : Nat) (f : T1 → T2) :
    (Map (Slice ([] : List T1)) f).Next (n + 2)
      = some ((default, some ErrNoNext), Map (Slice []) f) := by
  simp [Slice, Map, Iterator.Next]

theorem Next_Map_cons {T1 T2 : Type} [Inhabited T1] [Inhabited T2] (n : Nat) (f : T1 → T2)
    (x : T1) (l : List T1) :
    (Map (Slice (x :: l)) f).Next (n + 2) = some ((f x, none), Map (Slice l) f) := by
  simp [Slice, Map, Iterator.Next]

theorem Next_MapErr_nil {T1 T2 : Type} [Inhabited T1] [Inhabited T2] (n : Nat)
    (f : T1 → T2 × error) :
    (MapErr (Slice ([] : List T1)) f).Next (n + 2)
      = some ((default, some ErrNoNext), MapErr (Slice []) f) := by
  simp [Slice, MapErr, Iterator.Next]

theorem Next_MapErr_cons {T1 T2 : Type} [Inhabited T1] [Inhabited T2] (n : Nat)
    (f : T1 → T2 × error) (x : T1) (l : List T1) :
    (MapErr (Slice (x :: l)) f).Next (n + 2) = some (f x, MapErr (Slice l) f) := by
  simp [Slice, MapErr, Iterator.Next]

/-! ### Runs of calls -/

theorem Iterator.Nexts_succ_iff {T : Type} {n k : Nat} {it it2 : Iterator T}
    {r : T × error} {rs : List (T × error)} :
    it.Nexts n (k + 1) = some (r :: rs, it2)
      ↔ ∃ it1, it.Next n = some (r, it1) ∧ it1.Nexts n k = some (rs, it2) := by
  constructor
  · intro h
    simp only [Iterator.Nexts] at h
    split at h
    · simp at h
    · rename_i r1 it1 h1
      split at h
      · simp at h
      · rename_i rs1 it3 h2
        simp only [Option.some.injEq, Prod.mk.injEq, List.cons.injEq] at h
        obtain ⟨⟨rfl, rfl⟩, rfl⟩ := h
        exact ⟨it1, h1, h2⟩
  · rintro ⟨it1, h1, h2⟩
    simp [Iterator.Nexts, h1, h2]

/-- An iterator whose calls of `Next` return the values `vs` and then the error `e`. -/
theorem ToSlice_loop_of_Nexts {T : Type} {n : Nat} {z : T} {e : Error} {it2 : Iterator T} :
    ∀ {vs : List T} {it : Iterator T},
      it.Nexts n (vs.length + 1) = some (vs.map (fun v => (v, none)) ++ [(z, some e)], it2) →
      ∀ (acc : List T) (k : Nat),
        ToSlice.loop (n + vs.length + 1 + k) it acc
          = some (if errors.Is (some e) ErrNoNext then (some (acc ++ vs), none)
                  else (none, some e), it2) := by
  intro vs
  induction vs with
  | nil =>
    intro it h acc k
    simp only [List.length_nil, List.map_nil, List.nil_append, Nat.zero_add] at h
    obtain ⟨it1, h1, h2⟩ := Iterator.Nexts_succ_iff.mp h
    simp only [Iterator.Nexts, Option.some.injEq, Prod.mk.injEq, true_and] at h2
    subst h2
    have h3 := Iterator.Next_mono h1 (n + k) (by omega)
    have hf : n + ([] : List T).length + 1 + k = (n + k) + 1 := by simp; omega
    rw [hf]
    simp only [ToSlice.loop, h3, List.append_nil]
    split <;> simp_all
  | cons v vs ih =>
    intro it h acc k
    simp only [List.length_cons, List.map_cons, List.cons_append] at h
    obtain ⟨it1, h1, h2⟩ := Iterator.Nexts_succ_iff.mp h
    have h3 := Iterator.Next_mono h1 (n + vs.length + 1 + k) (by omega)
    have hf : n + (v :: vs).length + 1 + k = (n + vs.length + 1 + k) + 1 := by
      simp only [List.length_cons]; omega
    rw [hf]
    simp only [ToSlice.loop, h3]
    rw [ih h2 (acc ++ [v]) k]
    simp

theorem Fold_loop_of_Nexts {T1 T2 : Type} {n : Nat} {z : T1} {e : Error} {it2 : Iterator T1}
    (init : T2) (comb : T2 → T1 → T2) :
    ∀ {vs : List T1} {it : Iterator T1},
      it.Nexts n (vs.length + 1) = some (vs.map (fun v => (v, none)) ++ [(z, some e)], it2) →
      ∀ (acc : T2) (k : Nat),
        Fold.loop init comb (n + vs.length + 1 + k) it acc
          = some (if errors.Is (some e) ErrNoNext then (vs.foldl comb acc, none)
                  else (init, some e), it2) := by
  intro vs
  induction vs with
  | nil =>
    intro it h acc k
    simp only [List.length_nil, List.map_nil, List.nil_append, Nat.zero_add] at h
    obtain ⟨it1, h1, h2⟩ := Iterator.Nexts_succ_iff.mp h
    simp only [Iterator.Nexts, Option.some.injEq, Prod.mk.injEq, true_and] at h2
    subst h2
    have h3 := Iterator.Next_mono h1 (n + k) (by omega)
    have hf : n + ([] : List T1).length + 1 + k = (n + k) + 1 := by simp; omega
    rw [hf]
    simp only [Fold.loop, h3, List.foldl_nil]
    split <;> simp_all
  | cons v vs ih =>
    intro it h acc k
    simp only [List.length_cons, List.map_cons, List.cons_append] at h
    obtain ⟨it1, h1, h2⟩ := Iterator.Nexts_succ_iff.mp h
    have h3 := Iterator.Next_mono h1 (n + vs.length + 1 + k) (by omega)
    have hf : n + (v :: vs).length + 1 + k = (n + vs.length + 1 + k) + 1 := by
      simp only [List.length_cons]; omega
    rw [hf]
    simp only [Fold.loop, h3]
    rw [ih h2 (comb acc v) k]
    simp

theorem ForEach_of_Nexts {T ε : Type} {n : Nat} {z : T} {e : Error} {it2 : Iterator T}
    (fn : T → ε → ε) :
    ∀ {vs : List T} {it : Iterator T},
      it.Nexts n (vs.length + 1) = some (vs.map (fun v => (v, none)) ++ [(z, some e)], it2) →
      ∀ (env : ε) (k : Nat),
        ForEach (n + vs.length + 1 + k) it fn env
          = some ((if errors.Is (some e) ErrNoNext then none else some e,
                    vs.foldl (fun en v => fn v en) env), it2) := by
  intro vs
  induction vs with
  | nil =>
    intro it h env k
    simp only [List.length_nil, List.map_nil, List.nil_append, Nat.zero_add] at h
    obtain ⟨it1, h1, h2⟩ := Iterator.Nexts_succ_iff.mp h
    simp only [Iterator.Nexts, Option.some.injEq, Prod.mk.injEq, true_and] at h2
    subst h2
    have h3 := Iterator.Next_mono h1 (n + k) (by omega)
    have hf : n + ([] : List T).length + 1 + k = (n + k) + 1 := by simp; omega
    rw [hf]
    simp only [ForEach, h3, List.foldl_nil]
    split <;> simp_all
  | cons v vs ih =>
    intro it h env k
    simp only [List.length_cons, List.map_cons, List.cons_append] at h
    obtain ⟨it1, h1, h2⟩ := Iterator.Nexts_succ_iff.mp h
    have h3 := Iterator.Next_mono h1 (n + vs.length + 1 + k) (by omega)
    have hf : n + (v :: vs).length + 1 + k = (n + vs.length + 1 + k) + 1 := by
      simp only [List.length_cons]; omega
    rw [hf]
    simp only [ForEach, h3]
    rw [ih h2 (fn v env) k]
    simp

/-! ### The runs of the iterators built over a slice -/

theorem Nexts_Slice {T : Type} [Inhabited T] (n : Nat) (S : List T) :
    (Slice S).Nexts (n + 1) (S.length + 1)
      = some (S.map (fun v => (v, none)) ++ [(default, some ErrNoNext)], Slice []) := by
  induction S with
  | nil => simp [Iterator.Nexts, Next_Slice_nil]
  | cons x l ih =>
    exact Iterator.Nexts_succ_iff.mpr ⟨Slice l, Next_Slice_cons n x l, ih⟩

theorem Nexts_Map_Slice {T1 T2 : Type} [Inhabited T1] [Inhabited T2] (n : Nat) (f : T1 → T2)
    (S : List T1) :
    (Map (Slice S) f).Nexts (n + 2) ((S.map f).length + 1)
      = some ((S.map f).map (fun v => (v, none)) ++ [(default, some ErrNoNext)],
          Map (Slice []) f) := by
  induction S with
  | nil => simp [Iterator.Nexts, Next_Map_nil]
  | cons x l ih =>
    exact Iterator.Nexts_succ_iff.mpr ⟨Map (Slice l) f, Next_Map_cons n f x l, ih⟩


theorem Next_Filter_succ {T : Type} (n : Nat) (it : Iterator T) (p : T → Bool) :
    (Filter it p).Next (n + 1)
      = match it.Next n with
        | none => none
        | some ((value, err), inner1) =>
          match err with
          | none =>
            if p value then some ((value, none), Filter inner1 p)
            else (Filter inner1 p).Next n
          | some e => some ((value, some e), Filter inner1 p) := by
  simp only [Filter, Iterator.Next]

theorem Next_Filter_Slice {T : Type} [Inhabited T] (p : T → Bool) :
    ∀ (S : List T) (n : Nat), S.length + 2 ≤ n →
      (Filter (Slice S) p).Next n
        = some (match S.dropWhile (fun x => !p x) with
                | [] => ((default, some ErrNoNext), Filter (Slice []) p)
                | x :: rest => ((x, none), Filter (Slice rest) p)) := by
  intro S
  induction S with
  | nil =>
    intro n hn
    obtain ⟨m, rfl⟩ : ∃ m, n = m + 2 := ⟨n - 2, by simp at hn; omega⟩
    simp [Filter, Slice, Iterator.Next]
  | cons x l ih =>
    intro n hn
    obtain ⟨m, rfl⟩ : ∃ m, n = m + 2 := ⟨n - 2, by simp at hn; omega⟩
    have hl : l.length + 2 ≤ m + 1 := by simp at hn; omega
    rw [Next_Filter_succ, Next_Slice_cons m x l]
    by_cases hp : p x = true
    · simp [hp, List.dropWhile]
    · simp only [Bool.not_eq_true] at hp
      simp [hp, List.dropWhile, ih (m + 1) hl]

theorem Nexts_Filter_Slice {T : Type} [Inhabited T] (p : T → Bool) :
    ∀ (S : List T) (n : Nat), S.length + 2 ≤ n →
      (Filter (Slice S) p).Nexts n ((S.filter p).length + 1)
        = some ((S.filter p).map (fun v => (v, none)) ++ [(default, some ErrNoNext)],
            Filter (Slice []) p) := by
  intro S
  induction S with
  | nil =>
    intro n hn
    simp [Iterator.Nexts, Next_Filter_Slice p [] n hn]
  | cons x l ih =>
    intro n hn
    have hl : l.length + 2 ≤ n := by simp at hn; omega
    by_cases hp : p x = true
    · have h1 : (Filter (Slice (x :: l)) p).Next n = some ((x, none), Filter (Slice l) p) := by
        rw [Next_Filter_Slice p (x :: l) n hn]; simp [List.dropWhile, hp]
      simp only [List.filter_cons, hp, if_true, List.length_cons, List.map_cons,
        List.cons_append]
      exact Iterator.Nexts_succ_iff.mpr ⟨_, h1, ih n hl⟩
    · simp only [Bool.not_eq_true] at hp
      have h1 : (Filter (Slice (x :: l)) p).Next n = (Filter (Slice l) p).Next n := by
        rw [Next_Filter_Slice p (x :: l) n hn, Next_Filter_Slice p l n hl]
        simp [List.dropWhile, hp]
      have h2 := ih n hl
      simp only [List.filter_cons, hp, Bool.false_eq_true, if_false]
      simp only [Iterator.Nexts] at h2 ⊢
      rw [h1]; exact h2

theorem NextAt_Slice {T : Type} [Inhabited T] (n : Nat) :
    ∀ (i : Nat) (S : List T),
      (Slice S).NextAt (n + 1) i
        = some (match S[i]? with
                | some x => (x, none)
                | none => (default, some ErrNoNext)) := by
  intro i
  induction i with
  | zero =>
    intro S
    cases S with
    | nil => simp [Iterator.NextAt, Next_Slice_nil]
    | cons x l => simp [Iterator.NextAt, Next_Slice_cons]
  | succ i ih =>
    intro S
    cases S with
    | nil => simpa [Iterator.NextAt, Next_Slice_nil] using ih []
    | cons x l => simpa [Iterator.NextAt, Next_Slice_cons] using ih l

theorem NextAt_Map_Slice {T1 T2 : Type} [Inhabited T1] [Inhabited T2] (n : Nat) (f : T1 → T2) :
    ∀ (i : Nat) (S : List T1),
      (Map (Slice S) f).NextAt (n + 2) i
        = some (match S[i]? with
                | some x => (f x, none)
                | none => (default, some ErrNoNext)) := by
  intro i
  induction i with
  | zero =>
    intro S
    cases S with
    | nil => simp [Iterator.NextAt, Next_Map_nil]
    | cons x l => simp [Iterator.NextAt, Next_Map_cons]
  | succ i ih =>
    intro S
    cases S with
    | nil => simpa [Iterator.NextAt, Next_Map_nil] using ih []
    | cons x l => simpa [Iterator.NextAt, Next_Map_cons] using ih l

theorem NextAt_MapErr_Slice {T1 T2 : Type} [Inhabited T1] [Inhabited T2] (n : Nat)
    (f : T1 → T2 × error) :
    ∀ (i : Nat) (S : List T1),
      (MapErr (Slice S) f).NextAt (n + 2) i
        = some (match S[i]? with
                | some x => f x
                | none => (default, some ErrNoNext)) := by
  intro i
  induction i with
  | zero =>
    intro S
    cases S with
    | nil => simp [Iterator.NextAt, Next_MapErr_nil]
    | cons x l => simp [Iterator.NextAt, Next_MapErr_cons]
  | succ i ih =>
    intro S
    cases S with
    | nil => simpa [Iterator.NextAt, Next_MapErr_nil] using ih []
    | cons x l => simpa [Iterator.NextAt, Next_MapErr_cons] using ih l

theorem foldl_append_singleton {T : Type} (S : List T) :
    ∀ log : List T, S.foldl (fun en v => en ++ [v]) log = log ++ S := by
  induction S with
  | nil => intro log; simp
  | cons x l ih => intro log; simp [ih]

theorem Nexts_MapErr_Slice_fail {T1 T2 : Type} [Inhabited T1] [Inhabited T2] (n : Nat)
    (f : T1 → T2 × error) (b : T1) (C : List T1) (z : T2) (e : Error) (hb : f b = (z, some e)) :
    ∀ A : List T1, (∀ a ∈ A, (f a).2 = none) →
      (MapErr (Slice (A ++ b :: C)) f).Nexts (n + 2) ((A.map (fun a => (f a).1)).length + 1)
        = some ((A.map (fun a => (f a).1)).map (fun v => (v, none)) ++ [(z, some e)],
            MapErr (Slice C) f) := by
  intro A
  induction A with
  | nil =>
    intro _
    simp [Iterator.Nexts, Next_MapErr_cons, hb]
  | cons a A ih =>
    intro hA
    have ha : f a = ((f a).1, none) := by
      have := hA a (by simp)
      exact Prod.ext rfl this
    have h1 : (MapErr (Slice ((a :: A) ++ b :: C)) f).Next (n + 2)
        = some (((f a).1, none), MapErr (Slice (A ++ b :: C)) f) := by
      rw [List.cons_append, Next_MapErr_cons, ← ha]
    exact Iterator.Nexts_succ_iff.mpr ⟨_, h1, ih (fun x hx => hA x (by simp [hx]))⟩

/-! ### Exhaustion of the iterators the package builds -/

theorem Iterator.Next_preserves {n : Nat} : ∀ {T : Type} {it it1 : Iterator T} {r : T × error},
    it.Next n = some (r, it1) →
      (it.Built → it1.Built) ∧ (it.NoFnReturnsErrNoNext → it1.NoFnReturnsErrNoNext) := by
  induction n with
  | zero => intro T it it1 r h; simp [Iterator.Next] at h
  | succ n ih =>
    intro T it it1 r h
    cases it with
    | sliceIter slice =>
      simp only [Iterator.Next, Option.some.injEq, Prod.mk.injEq] at h
      obtain ⟨-, rfl⟩ := h
      simp [Iterator.Built, Iterator.NoFnReturnsErrNoNext]
    | custom σ state next =>
      simp only [Iterator.Next, Option.some.injEq, Prod.mk.injEq] at h
      obtain ⟨-, rfl⟩ := h
      simp [Iterator.Built, Iterator.NoFnReturnsErrNoNext]
    | mapIter inner fn =>
      simp only [Iterator.Next] at h
      cases hi : Iterator.Next n inner with
      | none => simp [hi] at h
      | some ri =>
        obtain ⟨⟨ov, err⟩, inner1⟩ := ri
        rw [hi] at h
        have := ih hi
        cases err <;> simp only [Option.some.injEq, Prod.mk.injEq] at h <;> obtain ⟨-, rfl⟩ := h <;>
          simpa [Iterator.Built, Iterator.NoFnReturnsErrNoNext] using this
    | mapErrIter inner fn =>
      simp only [Iterator.Next] at h
      cases hi : Iterator.Next n inner with
      | none => simp [hi] at h
      | some ri =>
        obtain ⟨⟨ov, err⟩, inner1⟩ := ri
        rw [hi] at h
        have := ih hi
        cases err <;> simp only [Option.some.injEq, Prod.mk.injEq] at h <;> obtain ⟨-, rfl⟩ := h <;>
          simp only [Iterator.Built, Iterator.NoFnReturnsErrNoNext] <;> tauto
    | filterIter inner pred =>
      simp only [Iterator.Next] at h
      cases hi : Iterator.Next n inner with
      | none => simp [hi] at h
      | some ri =>
        obtain ⟨⟨ov, err⟩, inner1⟩ := ri
        rw [hi] at h
        have h1 := ih hi
        cases err with
        | some e =>
          simp only [Option.some.injEq, Prod.mk.injEq] at h
          obtain ⟨-, rfl⟩ := h
          simpa [Iterator.Built, Iterator.NoFnReturnsErrNoNext] using h1
        | none =>
          simp only at h
          by_cases hp : pred ov = true
          · simp only [hp, if_true, Option.some.injEq, Prod.mk.injEq] at h
            obtain ⟨-, rfl⟩ := h
            simpa [Iterator.Built, Iterator.NoFnReturnsErrNoNext] using h1
          · simp only [hp] at h
            have h2 := ih h
            simp only [Iterator.Built, Iterator.NoFnReturnsErrNoNext] at h2 ⊢
            tauto


theorem Iterator.Next_exhausted_fixed {n : Nat} :
    ∀ {T : Type} {it it1 : Iterator T} {v : T}, it.Built → it.NoFnReturnsErrNoNext →
      it.Next n = some ((v, some ErrNoNext), it1) →
      it1.Next n = some ((v, some ErrNoNext), it1) := by
  induction n with
  | zero => intro T it it1 v _ _ h; simp [Iterator.Next] at h
  | succ n ih =>
    intro T it it1 v hb hf h
    cases it with
    | custom σ state next => simp [Iterator.Built] at hb
    | sliceIter slice =>
      cases slice with
      | nil =>
        simp only [Iterator.Next, sliceIter.Next_nil, Option.some.injEq, Prod.mk.injEq] at h
        obtain ⟨⟨rfl, -⟩, rfl⟩ := h
        simp [Iterator.Next]
      | cons x l => simp [Iterator.Next] at h
    | mapIter inner fn =>
      simp only [Iterator.Next] at h
      cases hi : Iterator.Next n inner with
      | none => simp [hi] at h
      | some ri =>
        obtain ⟨⟨ov, err⟩, inner1⟩ := ri
        rw [hi] at h
        cases err with
        | none => simp at h
        | some e =>
          simp only [Option.some.injEq, Prod.mk.injEq] at h
          obtain ⟨⟨rfl, rfl⟩, rfl⟩ := h
          have h1 := @ih _ inner _ _ hb hf hi
          simp [Iterator.Next, h1]
    | mapErrIter inner fn =>
      simp only [Iterator.Next] at h
      cases hi : Iterator.Next n inner with
      | none => simp [hi] at h
      | some ri =>
        obtain ⟨⟨ov, err⟩, inner1⟩ := ri
        rw [hi] at h
        cases err with
        | none =>
          simp only [Option.some.injEq, Prod.mk.injEq] at h
          exact absurd (by rw [h.1]) (hf.1 ov)
        | some e =>
          simp only [Option.some.injEq, Prod.mk.injEq] at h
          obtain ⟨⟨rfl, rfl⟩, rfl⟩ := h
          have h1 := @ih _ inner _ _ hb hf.2 hi
          simp [Iterator.Next, h1]
    | filterIter inner pred =>
      simp only [Iterator.Next] at h
      cases hi : Iterator.Next n inner with
      | none => simp [hi] at h
      | some ri =>
        obtain ⟨⟨ov, err⟩, inner1⟩ := ri
        rw [hi] at h
        cases err with
        | some e =>
          simp only [Option.some.injEq, Prod.mk.injEq] at h
          obtain ⟨⟨rfl, rfl⟩, rfl⟩ := h
          have h1 := @ih _ inner _ _ hb hf hi
          simp [Iterator.Next, h1]
        | none =>
          simp only at h
          by_cases hp : pred ov = true
          · simp [hp] at h
          · simp only [hp] at h
            have hpres := Iterator.Next_preserves hi
            have h2 := @ih _ (Iterator.filterIter inner1 pred) _ _ (hpres.1 hb) (hpres.2 hf) h
            exact Iterator.Next_mono h2 (n + 1) (by omega)

theorem Iterator.NextAt_of_fixed {T : Type} {n : Nat} {it : Iterator T} {r : T × error}
    (h : it.Next n = some (r, it)) : ∀ i : Nat, it.NextAt n i = some r := by
  intro i
  induction i with
  | zero => simp [Iterator.NextAt, h]
  | succ i ih => simpa [Iterator.NextAt, h] using ih

/-! ### One call of `Next` on a combinator over any inner iterator -/

theorem Next_Map_succ {T1 T2 : Type} [Inhabited T2] (n : Nat) (it : Iterator T1) (f : T1 → T2) :
    (Map it f).Next (n + 1)
      = match it.Next n with
        | none => none
        | some ((oldValue, err), inner1) =>
          match err with
          | none => some ((f oldValue, none), Map inner1 f)
          | some e => some ((default, some e), Map inner1 f) := by
  simp only [Map, Iterator.Next]

theorem Next_MapErr_succ {T1 T2 : Type} [Inhabited T2] (n : Nat) (it : Iterator T1)
    (f : T1 → T2 × error) :
    (MapErr it f).Next (n + 1)
      = match it.Next n with
        | none => none
        | some ((oldValue, err), inner1) =>
          match err with
          | none => some (f oldValue, MapErr inner1 f)
          | some e => some ((default, some e), MapErr inner1 f) := by
  simp only [MapErr, Iterator.Next]

/-! ### The run of a combinator from the run of its inner iterator -/

theorem Nexts_Map_of_Nexts {T1 T2 : Type} [Inhabited T2] (f : T1 → T2) {n : Nat} {z : T1}
    {e : Error} {fin : Iterator T1} :
    ∀ {L : List T1} {inner : Iterator T1},
      inner.Nexts n (L.length + 1) = some (L.map (fun v => (v, none)) ++ [(z, some e)], fin) →
      ∀ j : Nat,
        (Map inner f).Nexts (n + 1 + j) ((L.map f).length + 1)
          = some ((L.map f).map (fun v => (v, none)) ++ [(default, some e)], Map fin f) := by
  intro L
  induction L with
  | nil =>
    intro inner h j
    simp only [List.length_nil, List.map_nil, List.nil_append, Nat.zero_add] at h
    obtain ⟨it1, h1, h2⟩ := Iterator.Nexts_succ_iff.mp h
    simp only [Iterator.Nexts, Option.some.injEq, Prod.mk.injEq, true_and] at h2
    subst h2
    have h3 := Iterator.Next_mono h1 (n + j) (by omega)
    have hf : n + 1 + j = (n + j) + 1 := by omega
    simp only [List.map_nil, List.length_nil, Nat.zero_add, List.nil_append]
    refine Iterator.Nexts_succ_iff.mpr ⟨Map it1 f, ?_, by simp [Iterator.Nexts]⟩
    rw [hf, Next_Map_succ, h3]
  | cons x L ih =>
    intro inner h j
    simp only [List.length_cons, List.map_cons, List.cons_append] at h
    obtain ⟨it1, h1, h2⟩ := Iterator.Nexts_succ_iff.mp h
    have h3 := Iterator.Next_mono h1 (n + j) (by omega)
    have hf : n + 1 + j = (n + j) + 1 := by omega
    simp only [List.map_cons, List.length_cons, List.cons_append]
    refine Iterator.Nexts_succ_iff.mpr ⟨Map it1 f, ?_, ih h2 j⟩
    rw [hf, Next_Map_succ, h3]

theorem Nexts_Filter_of_Nexts {T : Type} (p : T → Bool) {n : Nat} {z : T} {e : Error}
    {fin : Iterator T} :
    ∀ {L : List T} {inner : Iterator T},
      inner.Nexts n (L.length + 1) = some (L.map (fun v => (v, none)) ++ [(z, some e)], fin) →
      ∀ j : Nat,
        (Filter inner p).Nexts (n + L.length + 1 + j) ((L.filter p).length + 1)
          = some ((L.filter p).map (fun v => (v, none)) ++ [(z, some e)], Filter fin p) := by
  intro L
  induction L with
  | nil =>
    intro inner h j
    simp only [List.length_nil, List.map_nil, List.nil_append, Nat.zero_add] at h
    obtain ⟨it1, h1, h2⟩ := Iterator.Nexts_succ_iff.mp h
    simp only [Iterator.Nexts, Option.some.injEq, Prod.mk.injEq, true_and] at h2
    subst h2
    have h3 := Iterator.Next_mono h1 (n + j) (by omega)
    have hf : n + 0 + 1 + j = (n + j) + 1 := by omega
    simp only [List.filter_nil, List.map_nil, List.length_nil, Nat.zero_add, List.nil_append]
    refine Iterator.Nexts_succ_iff.mpr ⟨Filter it1 p, ?_, by simp [Iterator.Nexts]⟩
    rw [hf, Next_Filter_succ, h3]
  | cons x L ih =>
    intro inner h j
    simp only [List.length_cons, List.map_cons, List.cons_append] at h
    obtain ⟨it1, h1, h2⟩ := Iterator.Nexts_succ_iff.mp h
    have h3 := Iterator.Next_mono h1 (n + L.length + 1 + j) (by omega)
    have hf : n + (L.length + 1) + 1 + j = (n + L.length + 1 + j) + 1 := by omega
    have hrec := ih h2 j
    have hrec1 := ih h2 (j + 1)
    have hf1 : n + L.length + 1 + (j + 1) = (n + L.length + 1 + j) + 1 := by omega
    rw [hf1] at hrec1
    by_cases hp : p x = true
    · simp only [List.filter_cons, hp, if_true, List.map_cons, List.length_cons,
        List.cons_append]
      rw [hf]
      refine Iterator.Nexts_succ_iff.mpr ⟨Filter it1 p, ?_, hrec1⟩
      rw [Next_Filter_succ, h3]
      simp [hp]
    · simp only [Bool.not_eq_true] at hp
      simp only [List.filter_cons, hp, Bool.false_eq_true, if_false, List.length_cons]
      rw [hf]
      -- the first call on `Filter inner p` skips `x` and goes on as a call on `Filter it1 p`
      have hstep : (Filter inner p).Next (n + L.length + 1 + j + 1)
          = (Filter it1 p).Next (n + L.length + 1 + j + 1) := by
        rw [Next_Filter_succ (n + L.length + 1 + j) inner, h3]
        simp only [hp, Bool.false_eq_true, if_false]
        cases hq : (Filter it1 p).Next (n + L.length + 1 + j) with
        | none =>
          simp only [Iterator.Nexts, hq] at hrec
          simp at hrec
        | some r => exact (Iterator.Next_mono hq _ (by omega)).symm
      simp only [Iterator.Nexts] at hrec1 ⊢
      rw [hstep]
      exact hrec1

theorem Nexts_MapErr_Slice_ok {T1 T2 : Type} [Inhabited T1] [Inhabited T2] (n : Nat)
    (f : T1 → T2 × error) :
    ∀ C : List T1, (∀ c ∈ C, (f c).2 = none) →
      (MapErr (Slice C) f).Nexts (n + 2) ((C.map (fun c => (f c).1)).length + 1)
        = some ((C.map (fun c => (f c).1)).map (fun v => (v, none))
            ++ [(default, some ErrNoNext)], MapErr (Slice []) f) := by
  intro C
  induction C with
  | nil =>
    intro _
    simp [Iterator.Nexts, Next_MapErr_nil]
  | cons c C ih =>
    intro hC
    have hc : f c = ((f c).1, none) := Prod.ext rfl (hC c (by simp))
    have h1 : (MapErr (Slice (c :: C)) f).Next (n + 2)
        = some (((f c).1, none), MapErr (Slice C) f) := by
      rw [Next_MapErr_cons, ← hc]
    exact Iterator.Nexts_succ_iff.mpr ⟨_, h1, ih (fun x hx => hC x (by simp [hx]))⟩

/-! ### The helpers of `maps.go` -/

theorem foldl_append_map {A B : Type} (g : A → B) (m : List A) :
    ∀ r : List B, m.foldl (fun r a => r ++ [g a]) r = r ++ m.map g := by
  induction m with
  | nil => intro r; simp
  | cons a m ih => intro r; simp [ih]

theorem Keys_eq {K V : Type} (m : List (K × V)) : Keys m = some (m.map Prod.fst) := by
  simp [Keys, foldl_append_map (fun kv : K × V => kv.1)]

theorem Values_eq {K V : Type} (m : List (K × V)) : Values m = some (m.map Prod.snd) := by
  simp [Values, foldl_append_map (fun kv : K × V => kv.2)]

theorem Entries_eq {K V : Type} (m : List (K × V)) :
    Entries m = some (m.map (fun kv => Entry.mk kv.1 kv.2)) := by
  simp [Entries, foldl_append_map (fun kv : K × V => Entry.mk kv.1 kv.2)]

/-! ### `Map` and `MapErr` with their effects on record -/

theorem mapIter_NextsTraced_Slice {T1 T2 : Type} [Inhabited T1] [Inhabited T2] (f : T1 → T2)
    (j : Nat) :
    ∀ (k : Nat) (S : List T1) (log : Effects T1),
      mapIter.NextsTraced (1 + j) f k (Slice S) log
        = some (((S.take k).map (fun x => (f x, none))
              ++ List.replicate (k - S.length) (default, some ErrNoNext), Slice (S.drop k)),
            ⟨log.pulls + k, log.calls ++ S.take k⟩) := by
  have hf : 1 + j = j + 1 := by omega
  rw [hf]
  intro k
  induction k with
  | zero => intro S log; simp [mapIter.NextsTraced]
  | succ k ih =>
    intro S log
    cases S with
    | nil =>
      simp only [mapIter.NextsTraced, mapIter.NextTraced, Next_Slice_nil, ih]
      simp [List.replicate_succ]
      omega
    | cons x l =>
      simp only [mapIter.NextsTraced, mapIter.NextTraced, Next_Slice_cons, ih]
      simp
      omega

theorem mapErrIter_NextsTraced_Slice {T1 T2 : Type} [Inhabited T1] [Inhabited T2]
    (f : T1 → T2 × error) (j : Nat) :
    ∀ (k : Nat) (S : List T1) (log : Effects T1),
      mapErrIter.NextsTraced (1 + j) f k (Slice S) log
        = some (((S.take k).map f
              ++ List.replicate (k - S.length) (default, some ErrNoNext), Slice (S.drop k)),
            ⟨log.pulls + k, log.calls ++ S.take k⟩) := by
  have hf : 1 + j = j + 1 := by omega
  rw [hf]
  intro k
  induction k with
  | zero => intro S log; simp [mapErrIter.NextsTraced]
  | succ k ih =>
    intro S log
    cases S with
    | nil =>
      simp only [mapErrIter.NextsTraced, mapErrIter.NextTraced, Next_Slice_nil, ih]
      simp [List.replicate_succ]
      omega
    | cons x l =>
      simp only [mapErrIter.NextsTraced, mapErrIter.NextTraced, Next_Slice_cons, ih]
      simp
      omega

/-! ### Termination: the remaining length of the source's view is a measure -/

theorem Iterator.Next_of_Built {n : Nat} :
    ∀ {T : Type} {it : Iterator T}, it.Built → it.depth + it.remaining ≤ n →
      ∃ r it1, it.Next n = some (r, it1) ∧ it1.Built ∧ it1.depth = it.depth
        ∧ it1.remaining ≤ it.remaining ∧ (r.2 = none → it1.remaining < it.remaining) := by
  induction n with
  | zero =>
    intro T it hb hn
    cases it <;> simp [Iterator.depth] at hn
  | succ n ih =>
    intro T it hb hn
    cases it with
    | custom σ state next => simp [Iterator.Built] at hb
    | sliceIter slice =>
      cases slice with
      | nil =>
        exact ⟨(default, some Error.ErrNoNext), Iterator.sliceIter [], by simp [Iterator.Next],
          trivial, rfl, Nat.le_refl _, by simp⟩
      | cons x l =>
        exact ⟨(x, none), Iterator.sliceIter l, by simp [Iterator.Next], trivial, rfl,
          by simp [Iterator.remaining], by simp [Iterator.remaining]⟩
    | mapIter inner fn =>
      simp only [Iterator.depth, Iterator.remaining] at hn
      obtain ⟨⟨v, err⟩, inner1, h1, hb1, hd1, hr1, hlt1⟩ := @ih _ inner hb (by omega)
      cases err with
      | none =>
        exact ⟨(fn v, none), Iterator.mapIter inner1 fn, by simp [Iterator.Next, h1], hb1,
          by simp [Iterator.depth, hd1], hr1, fun _ => hlt1 rfl⟩
      | some e =>
        exact ⟨(default, some e), Iterator.mapIter inner1 fn, by simp [Iterator.Next, h1], hb1,
          by simp [Iterator.depth, hd1], hr1, by simp⟩
    | mapErrIter inner fn =>
      simp only [Iterator.depth, Iterator.remaining] at hn
      obtain ⟨⟨v, err⟩, inner1, h1, hb1, hd1, hr1, hlt1⟩ := @ih _ inner hb (by omega)
      cases err with
      | none =>
        exact ⟨fn v, Iterator.mapErrIter inner1 fn, by simp [Iterator.Next, h1], hb1,
          by simp [Iterator.depth, hd1], hr1, fun _ => hlt1 rfl⟩
      | some e =>
        exact ⟨(default, some e), Iterator.mapErrIter inner1 fn, by simp [Iterator.Next, h1],
          hb1, by simp [Iterator.depth, hd1], hr1, by simp⟩
    | filterIter inner pred =>
      simp only [Iterator.depth, Iterator.remaining] at hn
      obtain ⟨⟨v, err⟩, inner1, h1, hb1, hd1, hr1, hlt1⟩ := @ih _ inner hb (by omega)
      cases err with
      | some e =>
        exact ⟨(v, some e), Iterator.filterIter inner1 pred, by simp [Iterator.Next, h1], hb1,
          by simp [Iterator.depth, hd1], hr1, by simp⟩
      | none =>
        have hlt := hlt1 rfl
        by_cases hp : pred v = true
        · exact ⟨(v, none), Iterator.filterIter inner1 pred, by simp [Iterator.Next, h1, hp],
            hb1, by simp [Iterator.depth, hd1], hr1, fun _ => hlt⟩
        · have hn2 : (Iterator.filterIter inner1 pred).depth
              + (Iterator.filterIter inner1 pred).remaining ≤ n := by
            simp only [Iterator.depth, Iterator.remaining]; omega
          obtain ⟨r, it2, h2, hb2, hd2, hr2, -⟩ :=
            @ih _ (Iterator.filterIter inner1 pred) hb1 hn2
          simp only [Iterator.depth, Iterator.remaining] at hd2 hr2
          refine ⟨r, it2, by simp [Iterator.Next, h1, hp, h2], hb2, ?_, ?_, fun _ => ?_⟩
          · simp only [Iterator.depth]; omega
          · simp only [Iterator.remaining]; omega
          · simp only [Iterator.remaining]; omega

theorem Iterator.Nexts_mono {T : Type} {n m : Nat} (hnm : n ≤ m) :
    ∀ {k : Nat} {it : Iterator T} {r : List (T × error) × Iterator T},
      it.Nexts n k = some r → it.Nexts m k = some r := by
  intro k
  induction k with
  | zero => intro it r h; simpa [Iterator.Nexts] using h
  | succ k ih =>
    intro it r h
    simp only [Iterator.Nexts] at h ⊢
    cases h1 : Iterator.Next n it with
    | none => simp [h1] at h
    | some x =>
      obtain ⟨r1, it1⟩ := x
      simp only [h1] at h
      simp only [Iterator.Next_mono h1 m hnm]
      cases h2 : Iterator.Nexts n k it1 with
      | none => simp [h2] at h
      | some y =>
        simp only [h2] at h
        simp only [ih h2]
        exact h

/-- An iterator the package built runs, with fuel for one call, to a call that returns
an error, after at most as many values as the view holds. -/
theorem Iterator.run_of_Built {T : Type} (N : Nat) :
    ∀ (m : Nat) (it : Iterator T), it.Built → it.remaining ≤ m → it.depth + it.remaining ≤ N →
      ∃ (vs : List T) (z : T) (e : Error) (it2 : Iterator T),
        it.Nexts N (vs.length + 1) = some (vs.map (fun v => (v, none)) ++ [(z, some e)], it2)
        ∧ vs.length ≤ it.remaining ∧ it2.Built := by
  intro m
  induction m with
  | zero =>
    intro it hb hm hN
    obtain ⟨⟨v, err⟩, it1, h1, hb1, -, -, hlt⟩ := Iterator.Next_of_Built hb hN
    cases err with
    | none => have := hlt rfl; omega
    | some e =>
      exact ⟨[], v, e, it1, by simp [Iterator.Nexts, h1], by simp, hb1⟩
  | succ m ih =>
    intro it hb hm hN
    obtain ⟨⟨v, err⟩, it1, h1, hb1, hd1, hr1, hlt⟩ := Iterator.Next_of_Built hb hN
    cases err with
    | some e =>
      exact ⟨[], v, e, it1, by simp [Iterator.Nexts, h1], by simp, hb1⟩
    | none =>
      have hlt1 := hlt rfl
      obtain ⟨vs, z, e, it2, h2, hlen, hb2⟩ := ih it1 hb1 (by omega) (by omega)
      refine ⟨v :: vs, z, e, it2, ?_, by simp only [List.length_cons]; omega, hb2⟩
      simp only [List.length_cons, List.map_cons, List.cons_append]
      exact Iterator.Nexts_succ_iff.mpr ⟨it1, h1, h2⟩

/-- A call of `ToSlice` that returns has seen some values and then an error. -/
theorem ToSlice_loop_run {T : Type} :
    ∀ (n : Nat) (it it2 : Iterator T) (acc : List T) (res : Option (List T)) (err : error),
      ToSlice.loop n it acc = some ((res, err), it2) →
      ∃ (vs : List T) (z : T) (e : Error),
        it.Nexts n (vs.length + 1) = some (vs.map (fun v => (v, none)) ++ [(z, some e)], it2)
        ∧ (res, err) = if errors.Is (some e) ErrNoNext then (some (acc ++ vs), none)
                       else (none, some e) := by
  intro n
  induction n with
  | zero => intro it it2 acc res err h; simp [ToSlice.loop] at h
  | succ n ih =>
    intro it it2 acc res err h
    simp only [ToSlice.loop] at h
    cases h1 : Iterator.Next n it with
    | none => simp [h1] at h
    | some x =>
      obtain ⟨⟨v, er⟩, it1⟩ := x
      rw [h1] at h
      have h1' := Iterator.Next_mono h1 (n + 1) (by omega)
      cases er with
      | some e =>
        simp only at h
        have hit : it1 = it2 ∧ (res, err)
            = if errors.Is (some e) ErrNoNext then (some acc, none) else (none, some e) := by
          split at h <;> simp_all
        obtain ⟨rfl, hres⟩ := hit
        exact ⟨[], v, e, by simp [Iterator.Nexts, h1'], by simpa using hres⟩
      | none =>
        simp only at h
        obtain ⟨vs, z, e, h2, h3⟩ := ih it1 it2 (acc ++ [v]) res err h
        refine ⟨v :: vs, z, e, ?_, by simpa using h3⟩
        simp only [List.length_cons, List.map_cons, List.cons_append]
        exact Iterator.Nexts_succ_iff.mpr ⟨it1, h1', Iterator.Nexts_mono (by omega) h2⟩

/-! ## The claims -/

/-- C1: for every finite sequence `S`, `ToSlice(Slice(S))` returns the sequence `S`
itself (so the same elements in the same places and the same length) with a nil error,
whenever the fuel is at least `len(S) + 2`; for the empty `S` the returned sequence is
the empty non-nil one (`some []`, not `none`). -/
theorem C1_ToSlice_Slice_roundtrip {T : Type} [Inhabited T] (S : List T) (k : Nat) :
    ToSlice (S.length + 2 + k) (Slice S) = some ((some S, none), Slice [])
    ∧ ToSlice (2 + k) (Slice ([] : List T)) = some ((some [], none), Slice []) := by
  have h : ∀ (L : List T) (j : Nat),
      ToSlice (L.length + 2 + j) (Slice L) = some ((some L, none), Slice []) := by
    intro L j
    have h1 := ToSlice_loop_of_Nexts (Nexts_Slice 0 L) [] j
    have hf : L.length + 2 + j = 0 + 1 + (List.length L) + 1 + j := by omega
    rw [ToSlice, hf, h1]
    simp [errors.Is, Error.Is]
  exact ⟨h S k, by simpa using h [] k⟩

/-- C2: for every finite sequence `S` and total function `f`, `ToSlice(Map(Slice(S), f))`
returns `[f(x) for x in S]`, in the order of `S`, with a nil error (fuel `len(S) + 3` or
more); and call number `i` (from 0) of `Next` on `Map(Slice(S), f)` returns `f(S[i])` with
a nil error when `i < len(S)` and `ErrNoNext` when `i >= len(S)`, so also the call right
after the last element. -/
theorem C2_Map_Slice {T1 T2 : Type} [Inhabited T1] [Inhabited T2] (S : List T1) (f : T1 → T2)
    (k : Nat) :
    ToSlice (S.length + 3 + k) (Map (Slice S) f) = some ((some (S.map f), none), Map (Slice []) f)
    ∧ ∀ i : Nat,
        (Map (Slice S) f).NextAt (2 + k) i
          = some (match S[i]? with
                  | some x => (f x, none)
                  | none => (default, some ErrNoNext)) := by
  constructor
  · have h1 := ToSlice_loop_of_Nexts (Nexts_Map_Slice 0 f S) [] k
    have hf : S.length + 3 + k = 0 + 2 + (S.map f).length + 1 + k := by
      simp only [List.length_map]; omega
    rw [ToSlice, hf, h1]
    simp [errors.Is, Error.Is]
  · intro i
    have hf : 2 + k = k + 2 := by omega
    rw [hf]
    exact NextAt_Map_Slice k f i S

/-- C3: for every finite sequence `S` and predicate `p`, `ToSlice(Filter(Slice(S), p))`
returns `S.filter p`, the elements of `S` that satisfy `p`, each once and in the order of
`S`, with a nil error (fuel `2 * len(S) + 3` or more). -/
theorem C3_Filter_Slice {T : Type} [Inhabited T] (S : List T) (p : T → Bool) (k : Nat) :
    ToSlice (2 * S.length + 3 + k) (Filter (Slice S) p)
      = some ((some (S.filter p), none), Filter (Slice []) p) := by
  have hle : (S.filter p).length ≤ S.length := List.length_filter_le p S
  have h1 := ToSlice_loop_of_Nexts (Nexts_Filter_Slice p S (S.length + 2) (Nat.le_refl _)) []
    (k + (S.length - (S.filter p).length))
  have hf : 2 * S.length + 3 + k
      = S.length + 2 + (S.filter p).length + 1 + (k + (S.length - (S.filter p).length)) := by
    omega
  rw [ToSlice, hf, h1]
  simp [errors.Is, Error.Is]

/-- C4: for every finite sequence `S`, seed `init` and combining function `comb`,
`Fold(Slice(S), init, comb)` returns the left fold of `comb` over `S` from `init`, in
the order of `S`, with a nil error (fuel `len(S) + 2` or more); `Fold(Slice([1,2,3]), 36,
add)` returns `(42, nil)`, and over the empty sequence `Fold` returns `(init, nil)`. -/
theorem C4_Fold_Slice {T1 T2 : Type} [Inhabited T1] (S : List T1) (init : T2)
    (comb : T2 → T1 → T2) (k : Nat) :
    Fold (S.length + 2 + k) (Slice S) init comb = some ((S.foldl comb init, none), Slice [])
    ∧ Fold (5 + k) (Slice [(1 : Int), 2, 3]) (36 : Int) (fun a i => a + i)
        = some ((42, none), Slice [])
    ∧ Fold (2 + k) (Slice ([] : List T1)) init comb = some ((init, none), Slice []) := by
  have h : ∀ {A B : Type} [Inhabited A] (L : List A) (i : B) (c : B → A → B) (j : Nat),
      Fold (L.length + 2 + j) (Slice L) i c = some ((L.foldl c i, none), Slice []) := by
    intro A B _ L i c j
    have h1 := Fold_loop_of_Nexts i c (Nexts_Slice 0 L) i j
    have hf : L.length + 2 + j = 0 + 1 + (List.length L) + 1 + j := by omega
    rw [Fold, hf, h1]
    simp [errors.Is, Error.Is]
  refine ⟨h S init comb k, ?_, by simpa using h ([] : List T1) init comb k⟩
  have h3 := h [(1 : Int), 2, 3] (36 : Int) (fun a i => a + i) k
  have hf : 5 + k = [(1 : Int), 2, 3].length + 2 + k := by simp
  rw [hf, h3]
  simp

/-- C5: errors of `MapErr` are not sticky. For every finite sequence `S` and fallible
function `f`, call number `i` (from 0) of `Next` on `MapErr(Slice(S), f)` returns exactly
`f(S[i])`, value and error, when `i < len(S)`, whatever the earlier calls returned, and
`ErrNoNext` when `i >= len(S)`, so also call number `len(S)`.  With `S = ["1","two","3"]`
and `strconv.Atoi` the calls return `1`, an error that is not the exhaustion signal (it
is a `strconv.ErrSyntax`), `3`, and `ErrNoNext`. -/
theorem C5_MapErr_not_sticky {T1 T2 : Type} [Inhabited T1] [Inhabited T2] (S : List T1)
    (f : T1 → T2 × error) (k : Nat) :
    (∀ i : Nat,
        (MapErr (Slice S) f).NextAt (2 + k) i
          = some (match S[i]? with
                  | some x => f x
                  | none => (default, some ErrNoNext)))
    ∧ (MapErr (Slice ["1", "two", "3"]) strconv.Atoi).NextAt (2 + k) 0 = some (1, none)
    ∧ (∃ e, (MapErr (Slice ["1", "two", "3"]) strconv.Atoi).NextAt (2 + k) 1 = some (0, some e)
        ∧ errors.Is (some e) ErrNoNext = false ∧ errors.Is (some e) strconv.ErrSyntax = true)
    ∧ (MapErr (Slice ["1", "two", "3"]) strconv.Atoi).NextAt (2 + k) 2 = some (3, none)
    ∧ (MapErr (Slice ["1", "two", "3"]) strconv.Atoi).NextAt (2 + k) 3
        = some (0, some ErrNoNext) := by
  have hf : 2 + k = k + 2 := by omega
  rw [hf]
  refine ⟨fun i => NextAt_MapErr_Slice k f i S, ?_, ⟨Error.Wrap 0 strconv.ErrSyntax, ?_, ?_, ?_⟩,
    ?_, ?_⟩
  · rw [NextAt_MapErr_Slice]; decide
  · rw [NextAt_MapErr_Slice]; decide
  · decide
  · decide
  · rw [NextAt_MapErr_Slice]; decide
  · rw [NextAt_MapErr_Slice]; decide

/-- C6 as stated fails: with a `MapErr` function that returns `ErrNoNext` for the element
`0`, call number 0 of `Next` on `MapErr(Slice([0, 1]), f)` returns `ErrNoNext` and call
number 1 returns the value `1` with a nil error. -/
theorem C6_counterexample :
    (MapErr (Slice [0, 1]) (failOnZero ErrNoNext)).NextAt 2 0 = some (0, some ErrNoNext)
    ∧ (MapErr (Slice [0, 1]) (failOnZero ErrNoNext)).NextAt 2 1 = some (1, none) := by
  decide

/-- C6, amended: for every iterator built from `Slice` by any nesting of `Map`, `MapErr`
and `Filter` in which no function given to `MapErr` ever returns the error `ErrNoNext`
itself, once a call of `Next` has returned `ErrNoNext`, every later call of `Next` on that
iterator returns `ErrNoNext` too (the same result as that call, with the fuel of that
call or more). -/
theorem C6_exhaustion_sticky {T : Type} (it it1 : Iterator T) (n : Nat) (v : T)
    (hb : it.Built) (hf : it.NoFnReturnsErrNoNext)
    (h : it.Next n = some ((v, some ErrNoNext), it1)) (i j : Nat) :
    it1.NextAt (n + j) i = some (v, some ErrNoNext) :=
  Iterator.NextAt_of_fixed
    (Iterator.Next_mono (Iterator.Next_exhausted_fixed hb hf h) (n + j) (by omega)) i

/-- The amended C6 at a concrete iterator: a `Filter` over a `MapErr` over a `Map` over
`Slice([0, 5])` whose first call of `Next` skips both elements and returns `ErrNoNext`;
call number 3 after it returns `ErrNoNext` again. -/
theorem C6_exhaustion_sticky_witness :
    (Filter (MapErr (Map (Slice [0, 5]) (fun x => x + 1)) (failOnZero (Error.New 7)))
        (fun x => x == 0)).Next 8
      = some ((0, some ErrNoNext),
          Filter (MapErr (Map (Slice []) (fun x => x + 1)) (failOnZero (Error.New 7)))
            (fun x => x == 0))
    ∧ (Filter (MapErr (Map (Slice []) (fun x => x + 1)) (failOnZero (Error.New 7)))
        (fun x => x == 0)).NextAt (8 + 0) 3 = some (0, some ErrNoNext) :=
  ⟨rfl, C6_exhaustion_sticky
    (Filter (MapErr (Map (Slice [0, 5]) (fun x => x + 1)) (failOnZero (Error.New 7)))
      (fun x => x == 0))
    (Filter (MapErr (Map (Slice []) (fun x => x + 1)) (failOnZero (Error.New 7)))
      (fun x => x == 0)) 8 0
    (by simp [Filter, MapErr, Map, Slice, Iterator.Built])
    (by
      simp only [Filter, MapErr, Map, Slice, Iterator.NoFnReturnsErrNoNext, and_true]
      intro x
      unfold failOnZero
      split <;> simp)
    (by rfl) 3 0⟩

/-- C7 as stated fails. With a function that fails on `0` with an error wrapping
`ErrNoNext` (an error value that is not `ErrNoNext`), `MapErr(Slice([1, 0, 2]), f)`
produces `1` and then that error, and `ToSlice` returns the shortened sequence `[1]`
with a nil error; with a function that fails on `0` with `ErrNoNext` itself, `ToSlice`
returns `([1], nil)` as well, not `(nil, e)` for the error `e` of the first failing
element. -/
theorem C7_counterexample :
    (MapErr (Slice [1, 0, 2]) (failOnZero (Error.Wrap 0 ErrNoNext))).NextAt 2 0 = some (1, none)
    ∧ (MapErr (Slice [1, 0, 2]) (failOnZero (Error.Wrap 0 ErrNoNext))).NextAt 2 1
        = some (0, some (Error.Wrap 0 ErrNoNext))
    ∧ Error.Wrap 0 ErrNoNext ≠ ErrNoNext
    ∧ (ToSlice 4 (MapErr (Slice [1, 0, 2]) (failOnZero (Error.Wrap 0 ErrNoNext)))).map Prod.fst
        = some (some [1], none)
    ∧ failOnZero ErrNoNext 0 = (0, some ErrNoNext)
    ∧ (ToSlice 4 (MapErr (Slice [1, 0, 2]) (failOnZero ErrNoNext))).map Prod.fst
        = some (some [1], none) := by
  decide

/-- C7, amended: `ToSlice` is all-or-nothing for the errors that `errors.Is` does not
match with `ErrNoNext` (errors that neither are `ErrNoNext` nor wrap it). For every
iterator whose calls of `Next` return the values `vs` and then such an error `e`,
`ToSlice` returns the nil slice together with exactly `e`, with enough fuel; in
particular, for every `S = A ++ [b] ++ C` and `f` that succeeds on the elements of `A`
and fails on `b` with such an error `e`, `ToSlice(MapErr(Slice(S), f))` returns
`(nil, e)`. -/
theorem C7_ToSlice_all_or_nothing :
    (∀ (T : Type) (it it2 : Iterator T) (n : Nat) (vs : List T) (z : T) (e : Error),
        it.Nexts n (vs.length + 1) = some (vs.map (fun v => (v, none)) ++ [(z, some e)], it2) →
        errors.Is (some e) ErrNoNext = false →
        ∀ k : Nat, ToSlice (n + vs.length + 1 + k) it = some ((none, some e), it2))
    ∧ (∀ (T1 T2 : Type) [Inhabited T1] [Inhabited T2] (A C : List T1) (b : T1)
        (f : T1 → T2 × error) (z : T2) (e : Error),
        (∀ a ∈ A, (f a).2 = none) → f b = (z, some e) →
        errors.Is (some e) ErrNoNext = false →
        ∀ k : Nat, ToSlice (A.length + 3 + k) (MapErr (Slice (A ++ b :: C)) f)
          = some ((none, some e), MapErr (Slice C) f)) := by
  have h : ∀ (T : Type) (it it2 : Iterator T) (n : Nat) (vs : List T) (z : T) (e : Error),
      it.Nexts n (vs.length + 1) = some (vs.map (fun v => (v, none)) ++ [(z, some e)], it2) →
      errors.Is (some e) ErrNoNext = false →
      ∀ k : Nat, ToSlice (n + vs.length + 1 + k) it = some ((none, some e), it2) := by
    intro T it it2 n vs z e h he k
    rw [ToSlice, ToSlice_loop_of_Nexts h [] k, he]
    simp
  refine ⟨h, ?_⟩
  intro T1 T2 _ _ A C b f z e hA hb he k
  have h1 := h T2 _ _ 2 _ z e (Nexts_MapErr_Slice_fail 0 f b C z e hb A hA) he k
  have hf : A.length + 3 + k = 2 + (A.map (fun a => (f a).1)).length + 1 + k := by
    simp only [List.length_map]; omega
  rw [hf]
  exact h1

/-- The amended C7 at the input of the package's test: `MapErr(Slice(["1","two","3"]),
strconv.Atoi)` produces `1` and then the syntax error of `"two"`, and `ToSlice` returns
the nil slice with that error, leaving the iterator over `["3"]`. -/
theorem C7_ToSlice_all_or_nothing_witness :
    (MapErr (Slice ["1", "two", "3"]) strconv.Atoi).Nexts 2 ([(1 : Int)].length + 1)
        = some ([(1 : Int)].map (fun v => (v, none))
            ++ [(0, some (Error.Wrap 0 strconv.ErrSyntax))],
            MapErr (Slice ["3"]) strconv.Atoi)
    ∧ errors.Is (some (Error.Wrap 0 strconv.ErrSyntax)) ErrNoNext = false
    ∧ ToSlice (2 + [(1 : Int)].length + 1 + 0) (MapErr (Slice ["1", "two", "3"]) strconv.Atoi)
        = some ((none, some (Error.Wrap 0 strconv.ErrSyntax)), MapErr (Slice ["3"]) strconv.Atoi)
    ∧ ToSlice (["1"].length + 3 + 0) (MapErr (Slice (["1"] ++ "two" :: ["3"])) strconv.Atoi)
        = some ((none, some (Error.Wrap 0 strconv.ErrSyntax)),
            MapErr (Slice ["3"]) strconv.Atoi) :=
  ⟨by rfl, by decide,
    C7_ToSlice_all_or_nothing.1 Int (MapErr (Slice ["1", "two", "3"]) strconv.Atoi)
      (MapErr (Slice ["3"]) strconv.Atoi) 2 [1] 0 (Error.Wrap 0 strconv.ErrSyntax)
      (by rfl) (by decide) 0,
    C7_ToSlice_all_or_nothing.2 String Int ["1"] ["3"] "two" strconv.Atoi 0
      (Error.Wrap 0 strconv.ErrSyntax) (by decide) (by decide) (by decide) 0⟩

/-- C8 as stated fails: with a function that fails on `0` with an error wrapping
`ErrNoNext` (an error value that is not `ErrNoNext`), `MapErr(Slice([1, 0, 2]), f)`
produces `1` and then that error, and `Fold` from the seed `10` with addition returns
`(11, nil)`, the partial sum with a nil error, not the seed with the error. -/
theorem C8_counterexample :
    (MapErr (Slice [1, 0, 2]) (failOnZero (Error.Wrap 0 ErrNoNext))).NextAt 2 0 = some (1, none)
    ∧ (MapErr (Slice [1, 0, 2]) (failOnZero (Error.Wrap 0 ErrNoNext))).NextAt 2 1
        = some (0, some (Error.Wrap 0 ErrNoNext))
    ∧ Error.Wrap 0 ErrNoNext ≠ ErrNoNext
    ∧ (Fold 4 (MapErr (Slice [1, 0, 2]) (failOnZero (Error.Wrap 0 ErrNoNext))) 10
          (fun acc v => acc + v)).map Prod.fst
        = some (11, none) := by
  decide

/-- C8, amended: `Fold` returns the untouched seed on a failure that `errors.Is` does not
match with `ErrNoNext` (an error that neither is `ErrNoNext` nor wraps it). For every
iterator whose calls of `Next` return the values `vs` and then such an error `e`,
`Fold(iter, init, comb)` returns `(init, e)`, the seed and not the value accumulated
over `vs`, for every `init` and `comb`, with enough fuel. -/
theorem C8_Fold_returns_seed {T1 T2 : Type} (it it2 : Iterator T1) (n : Nat) (vs : List T1)
    (z : T1) (e : Error) (init : T2) (comb : T2 → T1 → T2)
    (h : it.Nexts n (vs.length + 1) = some (vs.map (fun v => (v, none)) ++ [(z, some e)], it2))
    (he : errors.Is (some e) ErrNoNext = false) (k : Nat) :
    Fold (n + vs.length + 1 + k) it init comb = some ((init, some e), it2) := by
  rw [Fold, Fold_loop_of_Nexts init comb h init k, he]
  simp

/-- The amended C8 at a concrete input: `MapErr(Slice([1, 2, 0, 3]), f)` with `f` failing
on `0` produces `1`, `2` and then the error, and `Fold` from `10` with addition returns
the seed `10` with that error, not `13`. -/
theorem C8_Fold_returns_seed_witness :
    (MapErr (Slice [1, 2, 0, 3]) (failOnZero (Error.New 7))).Nexts 2 ([1, 2].length + 1)
        = some ([1, 2].map (fun v => (v, none)) ++ [(0, some (Error.New 7))],
            MapErr (Slice [3]) (failOnZero (Error.New 7)))
    ∧ errors.Is (some (Error.New 7)) ErrNoNext = false
    ∧ Fold (2 + [1, 2].length + 1 + 0) (MapErr (Slice [1, 2, 0, 3]) (failOnZero (Error.New 7)))
          10 (fun acc v => acc + v)
        = some ((10, some (Error.New 7)), MapErr (Slice [3]) (failOnZero (Error.New 7))) :=
  ⟨by rfl, by decide,
    C8_Fold_returns_seed (MapErr (Slice [1, 2, 0, 3]) (failOnZero (Error.New 7)))
      (MapErr (Slice [3]) (failOnZero (Error.New 7))) 2 [1, 2] 0 (Error.New 7) 10
      (fun acc v => acc + v) (by rfl) (by decide) 0⟩

/-- C9: for every finite sequence `S`, `ForEach(Slice(S), fn)` returns a nil error having
applied `fn` to the elements of `S` one after the other, in the order of `S`: the
surroundings end as the left fold of `fn` over `S`, that is `len(S)` calls (fuel
`len(S) + 2` or more); with `fn` appending its argument to a log that starts empty, the
final log is `S`. -/
theorem C9_ForEach_Slice {T ε : Type} [Inhabited T] (S : List T) (fn : T → ε → ε) (env : ε)
    (k : Nat) :
    ForEach (S.length + 2 + k) (Slice S) fn env
      = some ((none, S.foldl (fun en v => fn v en) env), Slice [])
    ∧ ForEach (S.length + 2 + k) (Slice S) (fun v log => log ++ [v]) []
      = some ((none, S), Slice []) := by
  have h : ∀ {E : Type} (g : T → E → E) (en : E),
      ForEach (S.length + 2 + k) (Slice S) g en
        = some ((none, S.foldl (fun en v => g v en) en), Slice []) := by
    intro E g en
    have h1 := ForEach_of_Nexts g (Nexts_Slice 0 S) en k
    have hf : S.length + 2 + k = 0 + 1 + (List.length S) + 1 + k := by omega
    rw [hf, h1]
    simp [errors.Is, Error.Is]
  refine ⟨h fn env, ?_⟩
  rw [h, foldl_append_singleton]
  simp

/-- C10: for every finite sequence `S`, call number `i` (from 0) of `Next` on `Slice(S)`
returns `S[i]` with a nil error when `i < len(S)` and `ErrNoNext` when `i >= len(S)`, so
no call returns another error; one call on the view `x :: rest` returns `x` and leaves
the view `rest`, and on the empty view returns `ErrNoNext` and leaves it empty.  (The
index expression in `sliceIter.Next` is in bounds by the proof it carries.) -/
theorem C10_Slice_Next {T : Type} [Inhabited T] (S : List T) (k : Nat) :
    (∀ i : Nat,
        (Slice S).NextAt (1 + k) i
          = some (match S[i]? with
                  | some x => (x, none)
                  | none => (default, some ErrNoNext)))
    ∧ (Slice S).Next (1 + k)
        = some (match S with
                | x :: rest => ((x, none), Slice rest)
                | [] => ((default, some ErrNoNext), Slice [])) := by
  have hf : 1 + k = k + 1 := by omega
  rw [hf]
  refine ⟨fun i => NextAt_Slice k i S, ?_⟩
  cases S with
  | nil => exact Next_Slice_nil k
  | cons x l => exact Next_Slice_cons k x l

/-- C11: combinators forward the outcome of the inner iterator unchanged. For every inner
iterator and all user functions, if the call of `Next` on the inner iterator returns an
error `e` (`ErrNoNext` or any other), then `Next` on `Map` and on `MapErr` returns exactly
`e`, with the zero value and never a value with a nil error, having made one pull and no
call of the user function (the record of calls is unchanged), and `Next` on `Filter`
returns exactly `e`, with the value the inner iterator returned; `Filter` does the same
when the error comes after pulls of values that the predicate rejects. -/
theorem C11_combinators_forward_errors {T1 T2 : Type} [Inhabited T2]
    (inner inner1 : Iterator T1) (n : Nat) (v : T1) (e : Error) (f : T1 → T2)
    (g : T1 → T2 × error) (p : T1 → Bool) (log : Effects T1)
    (h : inner.Next n = some ((v, some e), inner1)) (j : Nat) :
    (Map inner f).Next (n + 1 + j) = some ((default, some e), Map inner1 f)
    ∧ (MapErr inner g).Next (n + 1 + j) = some ((default, some e), MapErr inner1 g)
    ∧ (Filter inner p).Next (n + 1 + j) = some ((v, some e), Filter inner1 p)
    ∧ mapIter.NextTraced (n + j) inner f log
        = some (((default, some e), inner1), ⟨log.pulls + 1, log.calls⟩)
    ∧ mapErrIter.NextTraced (n + j) inner g log
        = some (((default, some e), inner1), ⟨log.pulls + 1, log.calls⟩)
    ∧ (∀ (it it2 : Iterator T1) (m : Nat) (vs : List T1) (z : T1) (e2 : Error),
        it.Nexts m (vs.length + 1) = some (vs.map (fun x => (x, none)) ++ [(z, some e2)], it2) →
        (∀ x ∈ vs, p x = false) →
        (Filter it p).Next (m + vs.length + 1 + j) = some ((z, some e2), Filter it2 p)) := by
  have h3 := Iterator.Next_mono h (n + j) (by omega)
  have hf : n + 1 + j = (n + j) + 1 := by omega
  refine ⟨?_, ?_, ?_, ?_, ?_, ?_⟩
  · rw [hf, Next_Map_succ, h3]
  · rw [hf, Next_MapErr_succ, h3]
  · rw [hf, Next_Filter_succ, h3]
  · simp only [mapIter.NextTraced, h3]
  · simp only [mapErrIter.NextTraced, h3]
  · intro it it2 m vs z e2 hrun hvs
    have h4 := Nexts_Filter_of_Nexts p hrun j
    have hnil : vs.filter p = [] := by
      rw [List.filter_eq_nil_iff]
      intro x hx
      simp [hvs x hx]
    rw [hnil] at h4
    simp only [List.length_nil, List.map_nil, List.nil_append, Nat.zero_add] at h4
    obtain ⟨it3, h5, h6⟩ := Iterator.Nexts_succ_iff.mp h4
    simp only [Iterator.Nexts, Option.some.injEq, Prod.mk.injEq, true_and] at h6
    rw [h5, h6]

/-- C11 at a concrete input: the inner iterator is the exhausted `Slice([])`, whose call
of `Next` returns `ErrNoNext`; `Map`, `MapErr` and `Filter` over it return `ErrNoNext`. -/
theorem C11_combinators_forward_errors_witness :
    (Slice ([] : List Nat)).Next 1 = some ((0, some ErrNoNext), Slice [])
    ∧ (Map (Slice ([] : List Nat)) (fun x => x + 1)).Next (1 + 1 + 0)
        = some ((0, some ErrNoNext), Map (Slice []) (fun x => x + 1))
    ∧ (MapErr (Slice ([] : List Nat)) (failOnZero (Error.New 7))).Next (1 + 1 + 0)
        = some ((0, some ErrNoNext), MapErr (Slice []) (failOnZero (Error.New 7)))
    ∧ (Filter (Slice ([] : List Nat)) (fun x => x == 0)).Next (1 + 1 + 0)
        = some ((0, some ErrNoNext), Filter (Slice []) (fun x => x == 0)) :=
  have h := @C11_combinators_forward_errors Nat Nat _ (Slice ([] : List Nat)) (Slice []) 1 0
    ErrNoNext (fun x => x + 1) (failOnZero (Error.New 7)) (fun x => x == 0) ⟨0, []⟩ (by rfl) 0
  ⟨by rfl, h.1, h.2.1, h.2.2.1⟩

/-- C12 as stated fails: with a function that fails on `0` with an error wrapping
`ErrNoNext` (an error value that is not `ErrNoNext`), `MapErr(Slice([1, 0, 2]), f)`
produces `1` and then that error, and `ForEach` with a callback that appends to a log
returns a nil error, not that error (the log is `[1]`). -/
theorem C12_counterexample :
    (MapErr (Slice [1, 0, 2]) (failOnZero (Error.Wrap 0 ErrNoNext))).NextAt 2 0 = some (1, none)
    ∧ (MapErr (Slice [1, 0, 2]) (failOnZero (Error.Wrap 0 ErrNoNext))).NextAt 2 1
        = some (0, some (Error.Wrap 0 ErrNoNext))
    ∧ Error.Wrap 0 ErrNoNext ≠ ErrNoNext
    ∧ (ForEach 4 (MapErr (Slice [1, 0, 2]) (failOnZero (Error.Wrap 0 ErrNoNext)))
          (fun v log => log ++ [v]) []).map Prod.fst
        = some (none, [1]) := by
  decide

/-- C12, amended: `ForEach` stops at the first error that `errors.Is` does not match with
`ErrNoNext` (an error that neither is `ErrNoNext` nor wraps it). For every iterator whose
calls of `Next` return the values `vs` and then such an error `e`, `ForEach` applies the
callback to the values of `vs` in that order and to nothing else (the surroundings end as
the left fold of the callback over `vs`), leaves the iterator as the failing call left
it, so pulls no later element, and returns `e` unmodified, with enough fuel. -/
theorem C12_ForEach_stops_at_error {T ε : Type} (it it2 : Iterator T) (n : Nat) (vs : List T)
    (z : T) (e : Error) (fn : T → ε → ε) (env : ε)
    (h : it.Nexts n (vs.length + 1) = some (vs.map (fun v => (v, none)) ++ [(z, some e)], it2))
    (he : errors.Is (some e) ErrNoNext = false) (k : Nat) :
    ForEach (n + vs.length + 1 + k) it fn env
      = some ((some e, vs.foldl (fun en v => fn v en) env), it2) := by
  rw [ForEach_of_Nexts fn h env k, he]
  simp

/-- The amended C12 at a concrete input: `MapErr(Slice([1, 2, 0, 3]), f)` with `f` failing
on `0` produces `1`, `2` and then the error; `ForEach` with a callback that appends to a
log returns that error with the log `[1, 2]`, and the iterator is left over `[3]`. -/
theorem C12_ForEach_stops_at_error_witness :
    (MapErr (Slice [1, 2, 0, 3]) (failOnZero (Error.New 7))).Nexts 2 ([1, 2].length + 1)
        = some ([1, 2].map (fun v => (v, none)) ++ [(0, some (Error.New 7))],
            MapErr (Slice [3]) (failOnZero (Error.New 7)))
    ∧ errors.Is (some (Error.New 7)) ErrNoNext = false
    ∧ ForEach (2 + [1, 2].length + 1 + 0) (MapErr (Slice [1, 2, 0, 3]) (failOnZero (Error.New 7)))
          (fun v log => log ++ [v]) []
        = some ((some (Error.New 7), [1, 2].foldl (fun en v => en ++ [v]) []),
            MapErr (Slice [3]) (failOnZero (Error.New 7))) :=
  ⟨by rfl, by decide,
    C12_ForEach_stops_at_error (MapErr (Slice [1, 2, 0, 3]) (failOnZero (Error.New 7)))
      (MapErr (Slice [3]) (failOnZero (Error.New 7))) 2 [1, 2] 0 (Error.New 7)
      (fun v log => log ++ [v]) [] (by rfl) (by decide) 0⟩

/-- C13: for every mapping `m` with unique keys and `N` entries, whatever the order in
which `range` visits the entries, `Keys(m)`, `Values(m)` and `Entries(m)` each return a
slice of exactly `N` elements; `Keys(m)` has no duplicates and is a permutation of the
keys of `m`, so it holds every key once; `Values(m)` is a permutation of the values of
`m`; `Entries(m)` is a permutation of the (key, value) pairs of `m`; for the empty mapping
each returns the empty slice that is not nil (`some []`). -/
theorem C13_map_decomposition {K V : Type} (m visit : List (K × V))
    (hkeys : (m.map Prod.fst).Nodup) (hvisit : visit.Perm m) :
    (∃ ks, Keys visit = some ks ∧ ks.length = m.length ∧ ks.Nodup
        ∧ ks.Perm (m.map Prod.fst))
    ∧ (∃ vs, Values visit = some vs ∧ vs.length = m.length ∧ vs.Perm (m.map Prod.snd))
    ∧ (∃ es, Entries visit = some es ∧ es.length = m.length
        ∧ es.Perm (m.map (fun kv => Entry.mk kv.1 kv.2)))
    ∧ Keys ([] : List (K × V)) = some []
    ∧ Values ([] : List (K × V)) = some []
    ∧ Entries ([] : List (K × V)) = some [] := by
  refine ⟨⟨_, Keys_eq visit, ?_, ?_, hvisit.map _⟩, ⟨_, Values_eq visit, ?_, hvisit.map _⟩,
    ⟨_, Entries_eq visit, ?_, hvisit.map _⟩, rfl, rfl, rfl⟩
  · rw [List.length_map, hvisit.length_eq]
  · exact ((hvisit.map Prod.fst).nodup_iff).mpr hkeys
  · rw [List.length_map, hvisit.length_eq]
  · rw [List.length_map, hvisit.length_eq]

/-- C13 at a concrete input: the mapping `{1: 10, 2: 20}` visited as `2` then `1`. -/
theorem C13_map_decomposition_witness :
    ([(1, 10), (2, 20)].map Prod.fst).Nodup
    ∧ [(2, 20), (1, 10)].Perm [(1, 10), (2, 20)]
    ∧ Keys [(2, 20), (1, 10)] = some [2, 1]
    ∧ ∃ ks, Keys [(2, 20), (1, 10)] = some ks ∧ ks.length = [(1, 10), (2, 20)].length
        ∧ ks.Nodup ∧ ks.Perm ([(1, 10), (2, 20)].map Prod.fst) :=
  ⟨by decide, by decide, by rfl,
    (C13_map_decomposition [(1, 10), (2, 20)] [(2, 20), (1, 10)] (by decide) (by decide)).1⟩

/-- C14: one step of `Filter` over a slice source. For every remaining view `R` and
predicate `p`, `Next` on `Filter(Slice(R), p)` (fuel `len(R) + 2` or more) drops the
elements at the front of `R` that fail `p`; if an element `x` is left in front, the first
one that satisfies `p`, it returns `x` with a nil error and the view becomes what follows
`x`; if nothing is left it returns `ErrNoNext` and the view is empty. So for `R = A ++ [x]
++ B` with `p` false on `A` and true on `x` the call returns `x` and leaves the view
`B`, and for `R` with `p` false on all of it the call returns `ErrNoNext` and leaves the
empty view. -/
theorem C14_Filter_step {T : Type} [Inhabited T] (R : List T) (p : T → Bool) (k : Nat) :
    (Filter (Slice R) p).Next (R.length + 2 + k)
      = some (match R.dropWhile (fun y => !p y) with
              | [] => ((default, some ErrNoNext), Filter (Slice []) p)
              | x :: rest => ((x, none), Filter (Slice rest) p))
    ∧ (∀ (A B : List T) (x : T), R = A ++ x :: B → (∀ a ∈ A, p a = false) → p x = true →
        (Filter (Slice R) p).Next (R.length + 2 + k) = some ((x, none), Filter (Slice B) p))
    ∧ ((∀ a ∈ R, p a = false) →
        (Filter (Slice R) p).Next (R.length + 2 + k)
          = some ((default, some ErrNoNext), Filter (Slice []) p)) := by
  have h := Next_Filter_Slice p R (R.length + 2 + k) (by omega)
  refine ⟨h, ?_, ?_⟩
  · intro A B x hR hA hx
    have hd : R.dropWhile (fun y => !p y) = x :: B := by
      subst hR
      rw [List.dropWhile_append_of_pos (by intro a ha; simp [hA a ha])]
      simp [List.dropWhile, hx]
    rw [h, hd]
  · intro hR
    have hd : R.dropWhile (fun y => !p y) = [] := by
      rw [List.dropWhile_eq_nil_iff]
      intro a ha
      simp [hR a ha]
    rw [h, hd]

/-- C14 at a concrete input, the slice of the package's test: on `[1, 2, 3, 4]` with the
predicate "even" the call returns `2` and leaves the view `[3, 4]`; on `[1, 3]` it
returns `ErrNoNext` and leaves the empty view. -/
theorem C14_Filter_step_witness :
    (Filter (Slice [1, 2, 3, 4]) (fun i => i % 2 == 0)).Next ([1, 2, 3, 4].length + 2 + 0)
        = some ((2, none), Filter (Slice [3, 4]) (fun i => i % 2 == 0))
    ∧ (Filter (Slice [1, 3]) (fun i => i % 2 == 0)).Next ([1, 3].length + 2 + 0)
        = some ((0, some ErrNoNext), Filter (Slice []) (fun i => i % 2 == 0)) :=
  ⟨(C14_Filter_step [1, 2, 3, 4] (fun i => i % 2 == 0) 0).2.1 [1] [3, 4] 2 (by rfl)
      (by decide) (by decide),
    (C14_Filter_step [1, 3] (fun i => i % 2 == 0) 0).2.2 (by decide)⟩

/-- C15: `Map` and `MapErr` are driven by demand. Constructing them stores the inner
iterator as it is, pulling nothing. One call of `Next` on them (the recorded bodies agree
with `Next`) calls `Next` on the inner iterator exactly once, and calls the user function
once, on the pulled value, when that pull succeeds and not at all when it fails. So after
`k` calls of `Next` on `Map(Slice(S), f)` or `MapErr(Slice(S), f)` there have been `k`
pulls, the view of the source is `S` without its first `min(k, len(S))` elements, and the
user function has been called `min(k, len(S))` times, on `S[0]`, `S[1]`, ... in that
order. -/
theorem C15_Map_MapErr_demand_driven {T1 T2 : Type} [Inhabited T1] [Inhabited T2]
    (inner : Iterator T1) (S : List T1) (f : T1 → T2) (g : T1 → T2 × error) (k j : Nat) :
    (Map inner f = Iterator.mapIter inner f ∧ MapErr inner g = Iterator.mapErrIter inner g)
    ∧ (∀ (fuel : Nat) (log : Effects T1),
        (Map inner f).Next (fuel + 1)
            = (mapIter.NextTraced fuel inner f log).map (fun x => (x.1.1, Map x.1.2 f))
        ∧ (MapErr inner g).Next (fuel + 1)
            = (mapErrIter.NextTraced fuel inner g log).map (fun x => (x.1.1, MapErr x.1.2 g)))
    ∧ (∀ (fuel : Nat) (log log1 : Effects T1) (r : T2 × error) (inner1 : Iterator T1),
        mapIter.NextTraced fuel inner f log = some ((r, inner1), log1) →
        log1.pulls = log.pulls + 1
        ∧ ((∃ v, inner.Next fuel = some ((v, none), inner1) ∧ log1.calls = log.calls ++ [v]
              ∧ r = (f v, none))
          ∨ (∃ v e, inner.Next fuel = some ((v, some e), inner1) ∧ log1.calls = log.calls
              ∧ r = (default, some e))))
    ∧ (∀ (fuel : Nat) (log log1 : Effects T1) (r : T2 × error) (inner1 : Iterator T1),
        mapErrIter.NextTraced fuel inner g log = some ((r, inner1), log1) →
        log1.pulls = log.pulls + 1
        ∧ ((∃ v, inner.Next fuel = some ((v, none), inner1) ∧ log1.calls = log.calls ++ [v]
              ∧ r = g v)
          ∨ (∃ v e, inner.Next fuel = some ((v, some e), inner1) ∧ log1.calls = log.calls
              ∧ r = (default, some e))))
    ∧ mapIter.NextsTraced (1 + j) f k (Slice S) ⟨0, []⟩
        = some (((S.take k).map (fun x => (f x, none))
              ++ List.replicate (k - S.length) (default, some ErrNoNext), Slice (S.drop k)),
            ⟨k, S.take k⟩)
    ∧ mapErrIter.NextsTraced (1 + j) g k (Slice S) ⟨0, []⟩
        = some (((S.take k).map g
              ++ List.replicate (k - S.length) (default, some ErrNoNext), Slice (S.drop k)),
            ⟨k, S.take k⟩)
    ∧ (S.take k).length = min k S.length
    ∧ (S.drop k).length = S.length - min k S.length := by
  refine ⟨⟨rfl, rfl⟩, ?_, ?_, ?_, ?_, ?_, by simp, by simp; omega⟩
  · intro fuel log
    constructor
    · rw [Next_Map_succ]
      simp only [mapIter.NextTraced]
      cases inner.Next fuel with
      | none => rfl
      | some x =>
        obtain ⟨⟨v, err⟩, inner1⟩ := x
        cases err <;> rfl
    · rw [Next_MapErr_succ]
      simp only [mapErrIter.NextTraced]
      cases inner.Next fuel with
      | none => rfl
      | some x =>
        obtain ⟨⟨v, err⟩, inner1⟩ := x
        cases err <;> rfl
  · intro fuel log log1 r inner1 h
    simp only [mapIter.NextTraced] at h
    cases hi : inner.Next fuel with
    | none => simp [hi] at h
    | some x =>
      obtain ⟨⟨v, err⟩, inner2⟩ := x
      rw [hi] at h
      cases err with
      | none =>
        simp only [Option.some.injEq, Prod.mk.injEq] at h
        obtain ⟨⟨rfl, rfl⟩, rfl⟩ := h
        exact ⟨rfl, Or.inl ⟨v, rfl, rfl, rfl⟩⟩
      | some e =>
        simp only [Option.some.injEq, Prod.mk.injEq] at h
        obtain ⟨⟨rfl, rfl⟩, rfl⟩ := h
        exact ⟨rfl, Or.inr ⟨v, e, rfl, rfl, rfl⟩⟩
  · intro fuel log log1 r inner1 h
    simp only [mapErrIter.NextTraced] at h
    cases hi : inner.Next fuel with
    | none => simp [hi] at h
    | some x =>
      obtain ⟨⟨v, err⟩, inner2⟩ := x
      rw [hi] at h
      cases err with
      | none =>
        simp only [Option.some.injEq, Prod.mk.injEq] at h
        obtain ⟨⟨rfl, rfl⟩, rfl⟩ := h
        exact ⟨rfl, Or.inl ⟨v, rfl, rfl, rfl⟩⟩
      | some e =>
        simp only [Option.some.injEq, Prod.mk.injEq] at h
        obtain ⟨⟨rfl, rfl⟩, rfl⟩ := h
        exact ⟨rfl, Or.inr ⟨v, e, rfl, rfl, rfl⟩⟩
  · have h := mapIter_NextsTraced_Slice f j k S ⟨0, []⟩
    simpa using h
  · have h := mapErrIter_NextsTraced_Slice g j k S ⟨0, []⟩
    simpa using h

/-- C15 at a concrete input: one call of `Next` on `Map(Slice([1, 2]), f)` with `f` adding
one makes one pull and one call of `f`, on `1`; five calls on `Map(Slice([1, 2, 3]), f)`
make five pulls and three calls of `f`, on `1`, `2`, `3`, and empty the view. -/
theorem C15_Map_MapErr_demand_driven_witness :
    mapIter.NextTraced 1 (Slice [1, 2]) (fun x => x + 1) ⟨0, []⟩
        = some (((2, none), Slice [2]), ⟨1, [1]⟩)
    ∧ (1 = 0 + 1
        ∧ ((∃ v, (Slice [1, 2]).Next 1 = some ((v, none), Slice [2]) ∧ [1] = [] ++ [v]
              ∧ ((2, none) : Nat × error) = (v + 1, none))
          ∨ (∃ v e, (Slice [1, 2]).Next 1 = some ((v, some e), Slice [2]) ∧ [1] = ([] : List Nat)
              ∧ ((2, none) : Nat × error) = (default, some e))))
    ∧ mapIter.NextsTraced (1 + 0) (fun x => x + 1) 5 (Slice [1, 2, 3]) ⟨0, []⟩
        = some ((([1, 2, 3].take 5).map (fun x => (x + 1, none))
              ++ List.replicate (5 - [1, 2, 3].length) (default, some ErrNoNext),
              Slice ([1, 2, 3].drop 5)),
            ⟨5, [1, 2, 3].take 5⟩) :=
  ⟨by rfl,
    (C15_Map_MapErr_demand_driven (Slice [1, 2]) [1, 2, 3] (fun x => x + 1)
      (failOnZero (Error.New 7)) 5 0).2.2.1 1 ⟨0, []⟩ ⟨1, [1]⟩ (2, none) (Slice [2]) (by rfl),
    (C15_Map_MapErr_demand_driven (Slice [1, 2]) [1, 2, 3] (fun x => x + 1)
      (failOnZero (Error.New 7)) 5 0).2.2.2.2.1⟩

/-- C16: termination on finite sources. For every iterator built from `Slice(S)` by any
nesting of `Map`, `MapErr` and `Filter` (user functions are total), every call of `Next`
returns, with fuel `depth + remaining` or more, and `ToSlice`, `ForEach` and `Fold`
return, with fuel `depth + 2 * remaining + 1` or more, where `remaining` is the length of
the view the source still holds. That length is the measure: it never grows over a call
of `Next`, which leaves a built iterator, and it drops with every call that returns a
value. The loop of `Filter` stops at the first pull that returns an error, exhaustion or
other, and returns it. -/
theorem C16_termination {T T2 ε : Type} (it : Iterator T) (hb : it.Built) (init : T2)
    (comb : T2 → T → T2) (fn : T → ε → ε) (env : ε) (p : T → Bool) (k : Nat) :
    (∃ r, it.Next (it.depth + it.remaining + k) = some r)
    ∧ (∃ r, ToSlice (it.depth + 2 * it.remaining + 1 + k) it = some r)
    ∧ (∃ r, ForEach (it.depth + 2 * it.remaining + 1 + k) it fn env = some r)
    ∧ (∃ r, Fold (it.depth + 2 * it.remaining + 1 + k) it init comb = some r)
    ∧ (∀ (n : Nat) (v : T) (it1 : Iterator T),
        it.Next n = some ((v, none), it1) → it1.remaining < it.remaining)
    ∧ (∀ (n : Nat) (r : T × error) (it1 : Iterator T),
        it.Next n = some (r, it1) → it1.Built ∧ it1.remaining ≤ it.remaining)
    ∧ (∀ (n : Nat) (v : T) (e : Error) (it1 : Iterator T),
        it.Next n = some ((v, some e), it1) →
        (Filter it p).Next (n + 1 + k) = some ((v, some e), Filter it1 p)) := by
  have hstep : ∀ (n : Nat) (r : T × error) (it1 : Iterator T), it.Next n = some (r, it1) →
      it1.Built ∧ it1.remaining ≤ it.remaining ∧ (r.2 = none → it1.remaining < it.remaining) := by
    intro n r it1 h
    obtain ⟨r2, it2, h2, hb2, -, hr2, hlt2⟩ :=
      Iterator.Next_of_Built (n := n + (it.depth + it.remaining)) hb (by omega)
    have h3 := Iterator.Next_mono h (n + (it.depth + it.remaining)) (by omega)
    rw [h2] at h3
    simp only [Option.some.injEq, Prod.mk.injEq] at h3
    obtain ⟨rfl, rfl⟩ := h3
    exact ⟨hb2, hr2, hlt2⟩
  obtain ⟨vs, z, e, it2, hrun, hlen, -⟩ :=
    Iterator.run_of_Built (it.depth + it.remaining) it.remaining it hb (Nat.le_refl _)
      (Nat.le_refl _)
  have hf : it.depth + 2 * it.remaining + 1 + k
      = it.depth + it.remaining + vs.length + 1 + (it.remaining - vs.length + k) := by omega
  refine ⟨?_, ?_, ?_, ?_, ?_, ?_, ?_⟩
  · obtain ⟨r, it1, h1, -⟩ := Iterator.Next_of_Built (n := it.depth + it.remaining + k) hb
      (by omega)
    exact ⟨_, h1⟩
  · exact ⟨_, by rw [ToSlice, hf, ToSlice_loop_of_Nexts hrun [] _]⟩
  · exact ⟨_, by rw [hf, ForEach_of_Nexts fn hrun env _]⟩
  · exact ⟨_, by rw [Fold, hf, Fold_loop_of_Nexts init comb hrun init _]⟩
  · intro n v it1 h
    exact (hstep n _ it1 h).2.2 rfl
  · intro n r it1 h
    exact ⟨(hstep n r it1 h).1, (hstep n r it1 h).2.1⟩
  · intro n v e it1 h
    have h3 := Iterator.Next_mono h (n + k) (by omega)
    have hf2 : n + 1 + k = (n + k) + 1 := by omega
    rw [hf2, Next_Filter_succ, h3]

/-- C16 at a concrete iterator: a `Filter` over a `Map` over `Slice([1, 2, 3])`, of depth
3 with 3 elements left; `Next` returns with fuel 6 and `ToSlice` with fuel 10. -/
theorem C16_termination_witness :
    (Filter (Map (Slice [1, 2, 3]) (fun x => x + 1)) (fun x => x % 2 == 0)).Built
    ∧ (∃ r, (Filter (Map (Slice [1, 2, 3]) (fun x => x + 1)) (fun x => x % 2 == 0)).Next
          ((Filter (Map (Slice [1, 2, 3]) (fun x => x + 1)) (fun x => x % 2 == 0)).depth
            + (Filter (Map (Slice [1, 2, 3]) (fun x => x + 1)) (fun x => x % 2 == 0)).remaining
            + 0) = some r)
    ∧ (∃ r, ToSlice
          ((Filter (Map (Slice [1, 2, 3]) (fun x => x + 1)) (fun x => x % 2 == 0)).depth
            + 2 * (Filter (Map (Slice [1, 2, 3]) (fun x => x + 1))
                (fun x => x % 2 == 0)).remaining + 1 + 0)
          (Filter (Map (Slice [1, 2, 3]) (fun x => x + 1)) (fun x => x % 2 == 0)) = some r) :=
  have h := C16_termination
    (Filter (Map (Slice [1, 2, 3]) (fun x => x + 1)) (fun x => x % 2 == 0))
    (by simp [Filter, Map, Slice, Iterator.Built])
    (0 : Nat) (fun a v => a + v) (fun v (log : List Nat) => log ++ [v]) [] (fun _ => true) 0
  ⟨by simp [Filter, Map, Slice, Iterator.Built], h.1, h.2.1⟩

/-- C17: a lazy pipeline of combinators equals the eager pipeline on lists. For every
finite sequence `S`, total functions `f` and `g` and predicate `p`,
`ToSlice(Map(Filter(Map(Slice(S), f), p), g))` returns the list got by mapping `f` over
`S`, keeping the elements that satisfy `p`, and mapping `g` over those, with a nil error
(fuel `2 * len(S) + 5` or more), and leaves the pipeline over the empty view. -/
theorem C17_pipeline_refines_lists {T1 T2 T3 : Type} [Inhabited T1] [Inhabited T2]
    [Inhabited T3] (S : List T1) (f : T1 → T2) (p : T2 → Bool) (g : T2 → T3) (k : Nat) :
    ToSlice (2 * S.length + 5 + k) (Map (Filter (Map (Slice S) f) p) g)
      = some ((some (((S.map f).filter p).map g), none),
          Map (Filter (Map (Slice []) f) p) g) := by
  have hle : (((S.map f).filter p).map g).length ≤ S.length := by
    rw [List.length_map]
    exact (List.length_filter_le p (S.map f)).trans (by simp)
  have h1 := Nexts_Map_of_Nexts f (Nexts_Slice 0 S) 0
  have h2 := Nexts_Filter_of_Nexts p h1 (S.length - (((S.map f).filter p).map g).length + k)
  have h3 := Nexts_Map_of_Nexts g h2 0
  have h4 := ToSlice_loop_of_Nexts h3 [] 0
  have hf : 2 * S.length + 5 + k
      = 0 + 1 + 1 + 0 + (S.map f).length
          + 1 + (S.length - (((S.map f).filter p).map g).length + k) + 1 + 0
          + (((S.map f).filter p).map g).length + 1 + 0 := by
    simp only [List.length_map] at hle ⊢
    omega
  rw [ToSlice, hf, h4]
  simp [errors.Is, Error.Is]

/-- C18: the three terminal consumers agree. For every iterator built from `Slice` by
`Map`, `MapErr` and `Filter` there are values `vs`, an error `e` and an iterator `it2`
such that, with enough fuel, `ToSlice`, `Fold` and `ForEach` all consume `vs` and the
call that fails with `e`, and all leave `it2`: when `errors.Is(e, ErrNoNext)` they return
`(vs, nil)`, `(foldl comb init vs, nil)` and nil, and otherwise `(nil, e)`, `(init, e)`
and `e`; `ForEach` has applied its callback to `vs` in order. So whenever `ToSlice`
returns `(L, nil)`, `Fold` returns `(foldl comb init L, nil)` and `ForEach` applies its
callback to the elements of `L` in order and returns nil, and whenever `ToSlice` returns
`(nil, e)`, `Fold` returns `(init, e)` and `ForEach` returns `e`, from the same iterator
to the same iterator. -/
theorem C18_consumers_agree {T T2 ε : Type} (it : Iterator T) (hb : it.Built) :
    (∃ (vs : List T) (e : Error) (it2 : Iterator T) (N : Nat),
      ∀ (k : Nat) (init : T2) (comb : T2 → T → T2) (fn : T → ε → ε) (env : ε),
        ToSlice (N + k) it
            = some (if errors.Is (some e) ErrNoNext then (some vs, none) else (none, some e),
                it2)
        ∧ Fold (N + k) it init comb
            = some (if errors.Is (some e) ErrNoNext then (vs.foldl comb init, none)
                    else (init, some e), it2)
        ∧ ForEach (N + k) it fn env
            = some ((if errors.Is (some e) ErrNoNext then none else some e,
                      vs.foldl (fun en v => fn v en) env), it2))
    ∧ (∀ (fuel : Nat) (L : List T) (it2 : Iterator T),
        ToSlice fuel it = some ((some L, none), it2) →
        ∃ N : Nat, ∀ (k : Nat) (init : T2) (comb : T2 → T → T2) (fn : T → ε → ε) (env : ε),
          Fold (N + k) it init comb = some ((L.foldl comb init, none), it2)
          ∧ ForEach (N + k) it fn env
              = some ((none, L.foldl (fun en v => fn v en) env), it2))
    ∧ (∀ (fuel : Nat) (e : Error) (it2 : Iterator T),
        ToSlice fuel it = some ((none, some e), it2) →
        ∃ (N : Nat) (vs : List T),
          ∀ (k : Nat) (init : T2) (comb : T2 → T → T2) (fn : T → ε → ε) (env : ε),
            Fold (N + k) it init comb = some ((init, some e), it2)
            ∧ ForEach (N + k) it fn env
                = some ((some e, vs.foldl (fun en v => fn v en) env), it2)) := by
  refine ⟨?_, ?_, ?_⟩
  · obtain ⟨vs, z, e, it2, hrun, -, -⟩ :=
      Iterator.run_of_Built (it.depth + it.remaining) it.remaining it hb (Nat.le_refl _)
        (Nat.le_refl _)
    refine ⟨vs, e, it2, it.depth + it.remaining + vs.length + 1, ?_⟩
    intro k init comb fn env
    refine ⟨?_, Fold_loop_of_Nexts init comb hrun init k, ForEach_of_Nexts fn hrun env k⟩
    rw [ToSlice, ToSlice_loop_of_Nexts hrun [] k]
    simp
  · intro fuel L it2 h
    obtain ⟨vs, z, e, hrun, hres⟩ := ToSlice_loop_run fuel it it2 [] (some L) none h
    have hIs : errors.Is (some e) ErrNoNext = true ∧ L = vs := by
      by_cases hc : errors.Is (some e) ErrNoNext = true
      · simp [hc] at hres
        exact ⟨hc, hres⟩
      · simp [hc] at hres
    obtain ⟨hc, rfl⟩ := hIs
    refine ⟨fuel + L.length + 1, ?_⟩
    intro k init comb fn env
    constructor
    · rw [Fold, Fold_loop_of_Nexts init comb hrun init k, hc]
      simp
    · rw [ForEach_of_Nexts fn hrun env k, hc]
      simp
  · intro fuel e it2 h
    obtain ⟨vs, z, e2, hrun, hres⟩ := ToSlice_loop_run fuel it it2 [] none (some e) h
    have hIs : errors.Is (some e2) ErrNoNext = false ∧ e = e2 := by
      by_cases hc : errors.Is (some e2) ErrNoNext = true
      · simp [hc] at hres
      · simp [hc] at hres
        exact ⟨by simpa using hc, hres⟩
    obtain ⟨hc, rfl⟩ := hIs
    refine ⟨fuel + vs.length + 1, vs, ?_⟩
    intro k init comb fn env
    constructor
    · rw [Fold, Fold_loop_of_Nexts init comb hrun init k, hc]
      simp
    · rw [ForEach_of_Nexts fn hrun env k, hc]
      simp

/-- C18 at a concrete input: on `MapErr(Slice([1, 2, 0, 3]), f)` with `f` failing on `0`,
`ToSlice` returns `(nil, e)` and leaves the iterator over `[3]`; `Fold` then returns the
seed with `e` and `ForEach` returns `e`, both leaving the iterator over `[3]`. -/
theorem C18_consumers_agree_witness :
    (MapErr (Slice [1, 2, 0, 3]) (failOnZero (Error.New 7))).Built
    ∧ ToSlice 5 (MapErr (Slice [1, 2, 0, 3]) (failOnZero (Error.New 7)))
        = some ((none, some (Error.New 7)), MapErr (Slice [3]) (failOnZero (Error.New 7)))
    ∧ ∃ (N : Nat) (vs : List Nat),
        ∀ (k : Nat) (init : Nat) (comb : Nat → Nat → Nat) (fn : Nat → List Nat → List Nat)
          (env : List Nat),
          Fold (N + k) (MapErr (Slice [1, 2, 0, 3]) (failOnZero (Error.New 7))) init comb
              = some ((init, some (Error.New 7)), MapErr (Slice [3]) (failOnZero (Error.New 7)))
          ∧ ForEach (N + k) (MapErr (Slice [1, 2, 0, 3]) (failOnZero (Error.New 7))) fn env
              = some ((some (Error.New 7), vs.foldl (fun en v => fn v en) env),
                  MapErr (Slice [3]) (failOnZero (Error.New 7))) :=
  ⟨by simp [MapErr, Slice, Iterator.Built], by rfl,
    (@C18_consumers_agree Nat Nat (List Nat)
      (MapErr (Slice [1, 2, 0, 3]) (failOnZero (Error.New 7)))
      (by simp [MapErr, Slice, Iterator.Built])).2.2 5 (Error.New 7)
      (MapErr (Slice [3]) (failOnZero (Error.New 7))) (by rfl)⟩

/-- C19 as stated fails: with a function that fails on `0` with an error wrapping
`ErrNoNext` (an error value that is not `ErrNoNext`) and succeeds elsewhere, the first
`ToSlice` on `MapErr(Slice([1, 0, 2]), f)` returns `([1], nil)`, not `(nil, e)`; the
iterator is left over `[2]`. -/
theorem C19_counterexample :
    failOnZero (Error.Wrap 0 ErrNoNext) 1 = (1, none)
    ∧ failOnZero (Error.Wrap 0 ErrNoNext) 0 = (0, some (Error.Wrap 0 ErrNoNext))
    ∧ failOnZero (Error.Wrap 0 ErrNoNext) 2 = (2, none)
    ∧ Error.Wrap 0 ErrNoNext ≠ ErrNoNext
    ∧ ToSlice 4 (MapErr (Slice ([1] ++ 0 :: [2])) (failOnZero (Error.Wrap 0 ErrNoNext)))
        = some ((some [1], none), MapErr (Slice [2]) (failOnZero (Error.Wrap 0 ErrNoNext))) :=
  ⟨by decide, by decide, by decide, by decide, by rfl⟩

/-- C19, amended: a `ToSlice` aborted by an error of the transform leaves the iterator
resumable just past the failing element. For every `S = A ++ [b] ++ C` and `f` that
succeeds on every element of `A` and of `C` and fails on `b` with an error `e` that
`errors.Is` does not match with `ErrNoNext` (it neither is `ErrNoNext` nor wraps it), the
first `ToSlice` on `MapErr(Slice(S), f)` returns `(nil, e)` and leaves the iterator over
`C`, and `ToSlice` on that iterator returns `([f(c) for c in C], nil)`; for
`["1","two","3"]` and `strconv.Atoi` the second call returns `([3], nil)`. -/
theorem C19_ToSlice_resumable {T1 T2 : Type} [Inhabited T1] [Inhabited T2] (A C : List T1)
    (b : T1) (f : T1 → T2 × error) (z : T2) (e : Error)
    (hA : ∀ a ∈ A, (f a).2 = none) (hC : ∀ c ∈ C, (f c).2 = none) (hb : f b = (z, some e))
    (he : errors.Is (some e) ErrNoNext = false) (k : Nat) :
    ToSlice (A.length + 3 + k) (MapErr (Slice (A ++ b :: C)) f)
        = some ((none, some e), MapErr (Slice C) f)
    ∧ ToSlice (C.length + 3 + k) (MapErr (Slice C) f)
        = some ((some (C.map (fun c => (f c).1)), none), MapErr (Slice []) f)
    ∧ ToSlice (4 + k) (MapErr (Slice ["1", "two", "3"]) strconv.Atoi)
        = some ((none, some (Error.Wrap 0 strconv.ErrSyntax)), MapErr (Slice ["3"]) strconv.Atoi)
    ∧ ToSlice (4 + k) (MapErr (Slice ["3"]) strconv.Atoi)
        = some ((some [3], none), MapErr (Slice []) strconv.Atoi) := by
  have first : ∀ {U1 U2 : Type} [Inhabited U1] [Inhabited U2] (A1 C1 : List U1) (b1 : U1)
      (f1 : U1 → U2 × error) (z1 : U2) (e1 : Error), (∀ a ∈ A1, (f1 a).2 = none) →
      f1 b1 = (z1, some e1) → errors.Is (some e1) ErrNoNext = false →
      ToSlice (A1.length + 3 + k) (MapErr (Slice (A1 ++ b1 :: C1)) f1)
        = some ((none, some e1), MapErr (Slice C1) f1) := by
    intro U1 U2 _ _ A1 C1 b1 f1 z1 e1 hA1 hb1 he1
    have h1 := ToSlice_loop_of_Nexts (Nexts_MapErr_Slice_fail 0 f1 b1 C1 z1 e1 hb1 A1 hA1) [] k
    have hf : A1.length + 3 + k = 0 + 2 + (A1.map (fun a => (f1 a).1)).length + 1 + k := by
      simp only [List.length_map]; omega
    rw [ToSlice, hf, h1, he1]
    simp
  have second : ∀ {U1 U2 : Type} [Inhabited U1] [Inhabited U2] (C1 : List U1)
      (f1 : U1 → U2 × error), (∀ c ∈ C1, (f1 c).2 = none) →
      ToSlice (C1.length + 3 + k) (MapErr (Slice C1) f1)
        = some ((some (C1.map (fun c => (f1 c).1)), none), MapErr (Slice []) f1) := by
    intro U1 U2 _ _ C1 f1 hC1
    have h1 := ToSlice_loop_of_Nexts (Nexts_MapErr_Slice_ok 0 f1 C1 hC1) [] k
    have hf : C1.length + 3 + k = 0 + 2 + (C1.map (fun c => (f1 c).1)).length + 1 + k := by
      simp only [List.length_map]; omega
    rw [ToSlice, hf, h1]
    simp [errors.Is, Error.Is]
  refine ⟨first A C b f z e hA hb he, second C f hC, ?_, ?_⟩
  · have h := first ["1"] ["3"] "two" strconv.Atoi 0 (Error.Wrap 0 strconv.ErrSyntax)
      (by decide) (by decide) (by decide)
    have hf : 4 + k = ["1"].length + 3 + k := by simp
    rw [hf]
    exact h
  · have h := second ["3"] strconv.Atoi (by decide)
    have hf : 4 + k = ["3"].length + 3 + k := by simp
    rw [hf, h]
    simp
    decide

/-- The amended C19 at a concrete input: `MapErr(Slice([1, 0, 2, 3]), f)` with `f` failing
on `0` with a plain error; the first `ToSlice` returns `(nil, e)` and leaves the iterator
over `[2, 3]`, the second returns `([2, 3], nil)`. -/
theorem C19_ToSlice_resumable_witness :
    ToSlice ([1].length + 3 + 0) (MapErr (Slice ([1] ++ 0 :: [2, 3])) (failOnZero (Error.New 7)))
        = some ((none, some (Error.New 7)), MapErr (Slice [2, 3]) (failOnZero (Error.New 7)))
    ∧ ToSlice ([2, 3].length + 3 + 0) (MapErr (Slice [2, 3]) (failOnZero (Error.New 7)))
        = some ((some ([2, 3].map (fun c => (failOnZero (Error.New 7) c).1)), none),
            MapErr (Slice []) (failOnZero (Error.New 7))) :=
  have h := C19_ToSlice_resumable [1] [2, 3] 0 (failOnZero (Error.New 7)) 0 (Error.New 7)
    (by decide) (by decide) (by decide) (by decide) 0
  ⟨h.1, h.2.1⟩

end iterator
